import Mathlib

/-!
Verification of the real-time session and media-streaming subsystem of the
`zine` repository: wire protocol chunk encoding (`src/network/protocol.rs`),
the video fragmentation and reassembly engine
(`src/screen/video_encoder.rs`, `src/screen/video_decoder.rs`), the video
jitter buffer (`src/screen/video_decoder.rs`), the host session manager
(`src/network/server.rs`) and the client game-state handler
(`src/network/client.rs`).

Machine integers are modelled as `Nat` with explicit `% 2^w` where the
source performs a narrowing cast; time (`Instant`) is modelled as a `Nat`
millisecond timestamp passed explicitly to the functions that read the
clock.
-/

namespace Zine

/-! ### Base64 (standard alphabet, with padding)

`protocol.rs` carries chunk payloads as base64 text produced and consumed by
the `base64` crate's `STANDARD` engine (RFC 4648, `+/` alphabet, `=`
padding, strict decoding: non-alphabet symbols, missing padding or non-zero
trailing bits are rejected).  The engine is an external dependency of the
repository, modelled here from that documented behaviour. -/

def b64Alphabet : List Char :=
  "ABCDEFGHIJKLMNOPQRSTUVWXYZabcdefghijklmnopqrstuvwxyz0123456789+/".toList

/-- The base64 symbol for a sextet value. -/
def sextetChar (n : Nat) : Char := b64Alphabet.getD n 'A'

/-- The sextet value of a base64 symbol, `none` for a non-alphabet symbol. -/
def sextetVal (c : Char) : Option Nat :=
  let i := b64Alphabet.indexOf c
  if i < 64 then some i else none

/-- Base64-encode a byte list (bytes are `Nat`s below 256). -/
def base64Encode : List Nat → List Char
  | [] => []
  | [a] =>
    [sextetChar (a / 4), sextetChar (a % 4 * 16), '=', '=']
  | [a, b] =>
    [sextetChar (a / 4), sextetChar (a % 4 * 16 + b / 16),
     sextetChar (b % 16 * 4), '=']
  | a :: b :: c :: rest =>
    sextetChar (a / 4) :: sextetChar (a % 4 * 16 + b / 16) ::
    sextetChar (b % 16 * 4 + c / 64) :: sextetChar (c % 64) ::
    base64Encode rest

/-- Strict base64 decoding: groups of four symbols, `=` padding allowed only
in the final group, non-zero trailing bits rejected. -/
def base64Decode : List Char → Option (List Nat)
  | [] => some []
  | a :: b :: c :: d :: rest =>
    if c = '=' ∧ d = '=' ∧ rest = [] then
      match sextetVal a, sextetVal b with
      | some va, some vb =>
        if vb % 16 = 0 then some [va * 4 + vb / 16] else none
      | _, _ => none
    else if d = '=' ∧ rest = [] then
      match sextetVal a, sextetVal b, sextetVal c with
      | some va, some vb, some vc =>
        if vc % 4 = 0 then
          some [va * 4 + vb / 16, vb % 16 * 16 + vc / 4]
        else none
      | _, _, _ => none
    else
      match sextetVal a, sextetVal b, sextetVal c, sextetVal d,
            base64Decode rest with
      | some va, some vb, some vc, some vd, some bytes =>
        some ((va * 4 + vb / 16) :: (vb % 16 * 16 + vc / 4) ::
              (vc % 4 * 64 + vd) :: bytes)
      | _, _, _, _, _ => none
  | _ => none

lemma sextetVal_sextetChar : ∀ n, n < 64 → sextetVal (sextetChar n) = some n := by
  decide

lemma sextetChar_ne_pad : ∀ n, sextetChar n ≠ '=' := by
  intro n
  by_cases h : n < 64
  · revert n
    decide
  · unfold sextetChar
    rw [List.getD_eq_default]
    · decide
    · have : b64Alphabet.length = 64 := by decide
      omega

/-- Encoding then strict decoding returns the original bytes. -/
lemma base64_roundtrip : ∀ l : List Nat, (∀ b ∈ l, b < 256) →
    base64Decode (base64Encode l) = some l := by
  intro l
  induction l using base64Encode.induct with
  | case1 =>
    intro _
    rfl
  | case2 a =>
    intro hb
    have ha : a < 256 := hb a (by simp)
    simp [base64Encode, base64Decode,
      sextetVal_sextetChar _ (show a / 4 < 64 by omega),
      sextetVal_sextetChar _ (show a % 4 * 16 < 64 by omega),
      Nat.mul_mod_left]
    omega
  | case3 a b =>
    intro hb
    have ha : a < 256 := hb a (by simp)
    have hbb : b < 256 := hb b (by simp)
    simp [base64Encode, base64Decode, sextetChar_ne_pad,
      sextetVal_sextetChar _ (show a / 4 < 64 by omega),
      sextetVal_sextetChar _ (show a % 4 * 16 + b / 16 < 64 by omega),
      sextetVal_sextetChar _ (show b % 16 * 4 < 64 by omega),
      Nat.mul_mod_left]
    constructor <;> omega
  | case4 a b c rest ih =>
    intro hb
    have ha : a < 256 := hb a (by simp)
    have hbb : b < 256 := hb b (by simp)
    have hc : c < 256 := hb c (by simp)
    have hrest : ∀ x ∈ rest, x < 256 := by
      intro x hx
      exact hb x (by simp [hx])
    simp [base64Encode, base64Decode, sextetChar_ne_pad, ih hrest,
      sextetVal_sextetChar _ (show a / 4 < 64 by omega),
      sextetVal_sextetChar _ (show a % 4 * 16 + b / 16 < 64 by omega),
      sextetVal_sextetChar _ (show b % 16 * 4 + c / 64 < 64 by omega),
      sextetVal_sextetChar _ (show c % 64 < 64 by omega)]
    refine ⟨by omega, by omega, by omega⟩

/-! ### Wire protocol (`src/network/protocol.rs`)

Chunk payloads are byte vectors (`Nat`s below 256); the struct stores them
base64-encoded, exactly as `protocol.rs` does.  `frame_id` is a `u32`,
`chunk_idx` and `total_chunks` are `u16`; they are modelled as `Nat`, with
the narrowing casts made explicit at the construction sites that cast. -/

/-- `protocol.rs` `VideoChunk`: an H.264 video chunk; `data_b64` holds the
payload base64-encoded. -/
structure VideoChunk where
  frame_id : Nat
  chunk_idx : Nat
  total_chunks : Nat
  is_keyframe : Bool
  data_b64 : List Char
deriving DecidableEq

namespace VideoChunk

/-- `VideoChunk::new`: stores the payload base64-encoded. -/
def new (frame_id chunk_idx total_chunks : Nat) (is_keyframe : Bool)
    (data : List Nat) : VideoChunk :=
  ⟨frame_id, chunk_idx, total_chunks, is_keyframe, base64Encode data⟩

/-- `VideoChunk::decode_data`: decodes the base64 payload. -/
def decode_data (c : VideoChunk) : Option (List Nat) :=
  base64Decode c.data_b64

end VideoChunk

/-- `protocol.rs` `ScreenFragment`: a JPEG screen-frame fragment; `data`
holds the chunk base64-encoded. -/
structure ScreenFragment where
  frame_id : Nat
  fragment_idx : Nat
  total_fragments : Nat
  width : Nat
  height : Nat
  data : List Char
deriving DecidableEq

namespace ScreenFragment

/-- `ScreenFragment::new`: stores the raw data base64-encoded. -/
def new (frame_id fragment_idx total_fragments width height : Nat)
    (raw_data : List Nat) : ScreenFragment :=
  ⟨frame_id, fragment_idx, total_fragments, width, height,
   base64Encode raw_data⟩

/-- `ScreenFragment::decode_data`: decodes the base64 data. -/
def decode_data (f : ScreenFragment) : Option (List Nat) :=
  base64Decode f.data

end ScreenFragment

/-- C10: chunk payload encoding round-trips: for every byte vector `d` and
every choice of the other fields, `VideoChunk::new` followed by
`decode_data` returns `some d`, and likewise for `ScreenFragment`; the
base64 wire representation never alters or loses payload bytes. -/
theorem C10_chunk_payload_roundtrip (d : List Nat) (hd : ∀ b ∈ d, b < 256)
    (fid cidx tot : Nat) (kf : Bool) (w h : Nat) :
    (VideoChunk.new fid cidx tot kf d).decode_data = some d ∧
    (ScreenFragment.new fid cidx tot w h d).decode_data = some d := by
  exact ⟨base64_roundtrip d hd, base64_roundtrip d hd⟩

theorem C10_chunk_payload_roundtrip_witness :
    (∀ b ∈ [0, 77, 255], b < 256) ∧
    (VideoChunk.new 1 2 3 true [0, 77, 255]).decode_data = some [0, 77, 255] ∧
    (ScreenFragment.new 1 2 3 4 5 [0, 77, 255]).decode_data =
      some [0, 77, 255] := by
  refine ⟨by decide, ?_⟩
  exact C10_chunk_payload_roundtrip [0, 77, 255] (by decide) 1 2 3 true 4 5

/-! ### Encoder-side fragmentation (`src/screen/video_encoder.rs`)

`run_encoder_thread` splits the encoded byte stream of one frame with
`encoded_data.chunks(MAX_CHUNK_SIZE)` (`MAX_CHUNK_SIZE = 4000`) and tags
chunk `idx` with `(frame_count, idx as u16, ceil(len/4000) as u16,
idx == 0)`.  Rust's slice `chunks` iterator is modelled by `chunksOf4000`,
written with a fuel argument (the list length) so that it reduces by
kernel computation. -/

/-- Slices of at most 4000 bytes, in order; `fuel` bounds the recursion
depth and any `fuel ≥ l.length` gives the same result. -/
def chunksOfAux : Nat → List Nat → List (List Nat)
  | 0, _ => []
  | _, [] => []
  | fuel + 1, l => l.take 4000 :: chunksOfAux fuel (l.drop 4000)

/-- Rust `l.chunks(4000)` for byte slices. -/
def chunksOf4000 (l : List Nat) : List (List Nat) :=
  chunksOfAux l.length l

lemma chunksOfAux_nil (fuel : Nat) : chunksOfAux fuel [] = [] := by
  cases fuel <;> rfl

lemma chunksOfAux_cons_succ (fuel x : Nat) (xs : List Nat) :
    chunksOfAux (fuel + 1) (x :: xs) =
      (x :: xs).take 4000 :: chunksOfAux fuel ((x :: xs).drop 4000) := rfl

lemma drop4000_length (x : Nat) (xs : List Nat) :
    ((x :: xs).drop 4000).length = xs.length + 1 - 4000 := by
  simp

lemma chunksOfAux_irrel : ∀ f1 f2 l, l.length ≤ f1 → l.length ≤ f2 →
    chunksOfAux f1 l = chunksOfAux f2 l := by
  intro f1
  induction f1 with
  | zero =>
    intro f2 l h1 _
    have : l = [] := List.length_eq_zero.mp (by omega)
    subst this
    rw [chunksOfAux_nil, chunksOfAux_nil]
  | succ f ih =>
    intro f2 l h1 h2
    cases l with
    | nil => rw [chunksOfAux_nil, chunksOfAux_nil]
    | cons x xs =>
      simp only [List.length_cons] at h1 h2
      cases f2 with
      | zero => omega
      | succ f2' =>
        rw [chunksOfAux_cons_succ, chunksOfAux_cons_succ]
        rw [ih f2' ((x :: xs).drop 4000)
          (by rw [drop4000_length]; omega)
          (by rw [drop4000_length]; omega)]

lemma chunksOf4000_cons (x : Nat) (xs : List Nat) :
    chunksOf4000 (x :: xs) =
      (x :: xs).take 4000 :: chunksOf4000 ((x :: xs).drop 4000) := by
  unfold chunksOf4000
  rw [List.length_cons, chunksOfAux_cons_succ]
  rw [chunksOfAux_irrel xs.length ((x :: xs).drop 4000).length _
    (by rw [drop4000_length]; omega) (le_refl _)]

/-- Concatenating the slices in order recovers the original bytes. -/
lemma chunksOf4000_flatten (l : List Nat) : (chunksOf4000 l).flatten = l := by
  suffices h : ∀ n (l : List Nat), l.length = n → (chunksOf4000 l).flatten = l from
    h l.length l rfl
  intro n
  induction n using Nat.strong_induction_on with
  | _ n ih =>
    intro l hn
    cases l with
    | nil => rfl
    | cons x xs =>
      rw [chunksOf4000_cons, List.flatten_cons]
      rw [ih ((x :: xs).drop 4000).length
        (by rw [drop4000_length]; simp only [List.length_cons] at hn; omega) _ rfl]
      exact List.take_append_drop 4000 (x :: xs)

/-- The number of slices is `ceil(len / 4000)`. -/
lemma chunksOf4000_length (l : List Nat) :
    (chunksOf4000 l).length = (l.length + 4000 - 1) / 4000 := by
  suffices h : ∀ n (l : List Nat), l.length = n →
      (chunksOf4000 l).length = (l.length + 4000 - 1) / 4000 from
    h l.length l rfl
  intro n
  induction n using Nat.strong_induction_on with
  | _ n ih =>
    intro l hn
    cases l with
    | nil => rfl
    | cons x xs =>
      rw [chunksOf4000_cons, List.length_cons]
      rw [ih ((x :: xs).drop 4000).length
        (by rw [drop4000_length]; simp only [List.length_cons] at hn; omega) _ rfl]
      rw [drop4000_length, List.length_cons]
      omega

/-- The length of slice `i`. -/
lemma chunksOf4000_getD_length (l : List Nat) (i : Nat)
    (h : i < (chunksOf4000 l).length) :
    ((chunksOf4000 l).getD i []).length = min 4000 (l.length - 4000 * i) := by
  suffices hgen : ∀ n (l : List Nat), l.length = n → ∀ i,
      i < (chunksOf4000 l).length →
      ((chunksOf4000 l).getD i []).length = min 4000 (l.length - 4000 * i) from
    hgen l.length l rfl i h
  intro n
  induction n using Nat.strong_induction_on with
  | _ n ih =>
    intro l hn i hi
    cases l with
    | nil => simp [chunksOf4000, chunksOfAux_nil] at hi
    | cons x xs =>
      rw [chunksOf4000_cons] at hi ⊢
      cases i with
      | zero =>
        simp only [List.getD_cons_zero, List.length_take, List.length_cons]
        omega
      | succ j =>
        simp only [List.getD_cons_succ]
        simp only [List.length_cons] at hi
        rw [ih ((x :: xs).drop 4000).length
          (by rw [drop4000_length]; simp only [List.length_cons] at hn; omega) _ rfl j
          (by omega)]
        rw [drop4000_length, List.length_cons]
        omega

/-- Every byte of a slice is a byte of the original list. -/
lemma chunksOf4000_subset (l : List Nat) (part : List Nat)
    (hp : part ∈ chunksOf4000 l) : ∀ b ∈ part, b ∈ l := by
  suffices hgen : ∀ n (l : List Nat), l.length = n → ∀ part ∈ chunksOf4000 l,
      ∀ b ∈ part, b ∈ l from hgen l.length l rfl part hp
  intro n
  induction n using Nat.strong_induction_on with
  | _ n ih =>
    intro l hn part hp
    cases l with
    | nil => simp [chunksOf4000, chunksOfAux_nil] at hp
    | cons x xs =>
      rw [chunksOf4000_cons] at hp
      rcases List.mem_cons.mp hp with h | h
      · subst h
        intro b hb
        exact List.mem_of_mem_take hb
      · intro b hb
        exact List.mem_of_mem_drop
          (ih ((x :: xs).drop 4000).length
            (by rw [drop4000_length]; simp only [List.length_cons] at hn; omega)
            _ rfl _ h b hb)

/-- `run_encoder_thread`'s fragmentation of one encoded frame: chunk `idx`
carries slice `idx`, the ceiling chunk count (cast to `u16`), the index
(cast to `u16`) and `is_keyframe = (idx == 0)`. -/
def fragmentEncoded (frame_count : Nat) (encoded_data : List Nat) :
    List VideoChunk :=
  (chunksOf4000 encoded_data).enum.map fun e =>
    VideoChunk.new frame_count (e.1 % 65536)
      (((encoded_data.length + 4000 - 1) / 4000) % 65536)
      (e.1 == 0) e.2

/-! ### Receiver-side frame assembly (`src/screen/video_decoder.rs`)

`VideoDecoder` assembles the chunks of the current frame.  The decoding
thread and its channels are outside the assembly algorithm; `add_chunk` is
modelled as a pure state transition that also returns the payload it would
send for decoding (`none` while the frame is incomplete).  `Instant` is a
`Nat` millisecond timestamp `now` passed to `add_chunk`; the source's
`add_chunk` body is split into its two phases, the reset check
(`is_first || is_newer || timed_out`) and the store/complete step. -/

/-- Assembly state of `VideoDecoder` (`current_frame_id`, `chunks`,
`total_chunks`, `received_count`, `frame_start_time`). -/
structure VideoDecoder where
  current_frame_id : Nat
  chunks : List (Option (List Nat))
  total_chunks : Nat
  received_count : Nat
  frame_start_time : Option Nat
deriving DecidableEq

namespace VideoDecoder

/-- The fresh assembly state built by `VideoDecoder::new`. -/
def init : VideoDecoder := ⟨0, [], 0, 0, none⟩

/-- The `timed_out` check of `add_chunk`: the frame assembly started more
than `FRAME_ASSEMBLY_TIMEOUT_MS = 200` milliseconds ago. -/
def timed_out_at (s : VideoDecoder) (now : Nat) : Prop :=
  ∃ t, s.frame_start_time = some t ∧ now - t > 200

instance (s : VideoDecoder) (now : Nat) : Decidable (s.timed_out_at now) :=
  match h : s.frame_start_time with
  | some t =>
    decidable_of_iff (now - t > 200)
      (by constructor
          · intro hc
            exact ⟨t, h, hc⟩
          · intro hc
            rcases hc with ⟨u, hu, hc⟩
            rw [h] at hu
            cases hu
            exact hc)
  | none =>
    isFalse (by
      intro hc
      rcases hc with ⟨u, hu, -⟩
      rw [h] at hu
      cases hu)

/-- First phase of `add_chunk`: reset for a first chunk, a newer frame id
(with id-0 wraparound tolerance) or a timed-out assembly. -/
def after_reset (s : VideoDecoder) (chunk : VideoChunk) (now : Nat) :
    VideoDecoder :=
  if s.total_chunks = 0 ∨
      (chunk.frame_id > s.current_frame_id ∨
        (chunk.frame_id = 0 ∧ s.current_frame_id > 1000)) ∨
      s.timed_out_at now then
    { s with current_frame_id := chunk.frame_id,
             total_chunks := chunk.total_chunks,
             chunks := List.replicate chunk.total_chunks none,
             received_count := 0,
             frame_start_time := some now }
  else s

/-- The `data` assembled on completion: slot payloads concatenated in index
order, skipping empty slots (the source's `for c in &self.chunks` loop). -/
def assembleData (slots : List (Option (List Nat))) : List Nat :=
  slots.foldl (fun acc c => match c with | some d => acc ++ d | none => acc) []

/-- Second phase of `add_chunk`: drop a chunk whose id does not match the
(possibly reset) assembly, store an unfilled slot, and on the last slot
emit the assembled payload and clear the assembly state. -/
def store_chunk (s : VideoDecoder) (chunk : VideoChunk) :
    VideoDecoder × Option (List Nat × Nat) :=
  if chunk.frame_id ≠ s.current_frame_id then (s, none)
  else if chunk.chunk_idx < s.chunks.length ∧
      s.chunks.getD chunk.chunk_idx (some []) = none then
    let chunks := s.chunks.set chunk.chunk_idx (some (chunk.decode_data.getD []))
    if s.received_count + 1 = s.total_chunks then
      (⟨s.current_frame_id, [], 0, 0, none⟩,
       some (assembleData chunks, s.current_frame_id))
    else
      ({ s with chunks := chunks, received_count := s.received_count + 1 }, none)
  else (s, none)

/-- `VideoDecoder::add_chunk` at time `now`; returns the new state and the
`(data, frame_id)` pair sent for decoding when the frame completes. -/
def add_chunk (s : VideoDecoder) (chunk : VideoChunk) (now : Nat) :
    VideoDecoder × Option (List Nat × Nat) :=
  store_chunk (after_reset s chunk now) chunk

end VideoDecoder

/-- Feed a timed chunk sequence to the assembler, collecting every payload
it emits for decoding. -/
def feedAll (s : VideoDecoder) :
    List (VideoChunk × Nat) → VideoDecoder × List (List Nat × Nat)
  | [] => (s, [])
  | (c, t) :: rest =>
    let r := s.add_chunk c t
    let r2 := feedAll r.1 rest
    (r2.1, r.2.toList ++ r2.2)

/-- C4: while an assembly for frame `K` is in progress and inside the 200 ms
window, a chunk with id strictly below `K` (excluding the id-0 wraparound
case against `K > 1000`) is discarded: nothing is emitted and the whole
assembly state is unchanged. -/
theorem C4_stale_chunk_discarded (s : VideoDecoder) (chunk : VideoChunk)
    (now st : Nat)
    (hprog : s.total_chunks ≠ 0)
    (hstart : s.frame_start_time = some st)
    (hwin : now - st ≤ 200)
    (hold : chunk.frame_id < s.current_frame_id)
    (hwrap : ¬(chunk.frame_id = 0 ∧ s.current_frame_id > 1000)) :
    s.add_chunk chunk now = (s, none) := by
  have hreset : s.after_reset chunk now = s := by
    unfold VideoDecoder.after_reset
    rw [if_neg]
    rintro (h1 | h2 | h3)
    · exact hprog h1
    · rcases h2 with h2 | h2
      · omega
      · exact hwrap h2
    · rcases h3 with ⟨u, hu, hc⟩
      rw [hstart] at hu
      cases hu
      omega
  unfold VideoDecoder.add_chunk
  rw [hreset]
  unfold VideoDecoder.store_chunk
  rw [if_pos (by omega)]

theorem C4_stale_chunk_discarded_witness :
    (⟨7, [none, none], 2, 0, some 100⟩ : VideoDecoder).add_chunk
      (VideoChunk.new 3 0 2 false [1]) 250 =
      ((⟨7, [none, none], 2, 0, some 100⟩ : VideoDecoder), none) :=
  C4_stale_chunk_discarded _ _ 250 100 (by decide) rfl (by decide)
    (by decide) (by decide)

lemma replicate_none_getD (n i : Nat) (d : Option (List Nat)) :
    (List.replicate n (none : Option (List Nat))).getD i d =
      if i < n then none else d := by
  rw [List.getD_eq_getElem?_getD]
  rcases Nat.lt_or_ge i n with h | h
  · rw [List.getElem?_replicate_of_lt h, if_pos h]
    rfl
  · rw [List.getElem?_eq_none_iff.mpr (by simpa using h), if_neg (by omega)]
    rfl

/-- C7: when the in-progress assembly has timed out (more than 200 ms since
`frame_start_time`) and is still incomplete, the next chunk abandons it and
starts a fresh assembly keyed to that chunk's id and sized to its
`total_chunks`: afterwards no slot holds data from the abandoned frame
(every slot is empty except possibly the new chunk's own slot), so nothing
of the abandoned frame can reach a payload later emitted for the new
frame; an immediate emission (single-chunk frame) carries exactly the new
chunk's payload. -/
theorem C7_timeout_restarts_assembly (s : VideoDecoder) (chunk : VideoChunk)
    (now st : Nat)
    (hstart : s.frame_start_time = some st)
    (htimeout : now - st > 200)
    (hincomplete : s.received_count < s.total_chunks) :
    (s.add_chunk chunk now).1.current_frame_id = chunk.frame_id ∧
    (∀ i, i ≠ chunk.chunk_idx →
      (s.add_chunk chunk now).1.chunks.getD i none = none) ∧
    (∀ i, (s.add_chunk chunk now).1.chunks.getD i none = none ∨
      (s.add_chunk chunk now).1.chunks.getD i none =
        some (chunk.decode_data.getD [])) ∧
    (((s.add_chunk chunk now).2 = none ∧
      (s.add_chunk chunk now).1.total_chunks = chunk.total_chunks ∧
      (s.add_chunk chunk now).1.chunks.length = chunk.total_chunks ∧
      (s.add_chunk chunk now).1.received_count ≤ 1 ∧
      (s.add_chunk chunk now).1.frame_start_time = some now) ∨
     ((s.add_chunk chunk now).2 =
        some (chunk.decode_data.getD [], chunk.frame_id) ∧
      (s.add_chunk chunk now).1.chunks = [] ∧
      (s.add_chunk chunk now).1.total_chunks = 0)) := by
  have hreset : s.after_reset chunk now =
      ⟨chunk.frame_id, List.replicate chunk.total_chunks none,
       chunk.total_chunks, 0, some now⟩ := by
    unfold VideoDecoder.after_reset
    rw [if_pos (Or.inr (Or.inr ⟨st, hstart, htimeout⟩))]
  unfold VideoDecoder.add_chunk
  rw [hreset]
  unfold VideoDecoder.store_chunk
  rw [if_neg (by simp)]
  simp only [List.length_replicate]
  by_cases hidx : chunk.chunk_idx < chunk.total_chunks
  · rw [if_pos ⟨hidx, by rw [replicate_none_getD, if_pos hidx]⟩]
    simp only [Nat.zero_add]
    by_cases hone : 1 = chunk.total_chunks
    · rw [if_pos hone]
      refine ⟨rfl, by simp, by simp, Or.inr ⟨?_, rfl, rfl⟩⟩
      simp only [Prod.mk.injEq]
      have htot : chunk.total_chunks = 1 := hone.symm
      have hidx0 : chunk.chunk_idx = 0 := by omega
      rw [htot, hidx0]
      simp [VideoDecoder.assembleData]
    · rw [if_neg hone]
      refine ⟨rfl, ?_, ?_,
        Or.inl ⟨rfl, rfl, by simp, by simp, rfl⟩⟩
      · intro i hi
        simp only
        rw [List.getD_eq_getElem?_getD, List.getElem?_set_ne (by omega)]
        rcases Nat.lt_or_ge i chunk.total_chunks with h | h
        · rw [List.getElem?_replicate_of_lt h]
          rfl
        · rw [List.getElem?_eq_none_iff.mpr (by simpa using h)]
          rfl
      · intro i
        simp only
        rcases eq_or_ne i chunk.chunk_idx with he | he
        · right
          rw [List.getD_eq_getElem?_getD, he,
            List.getElem?_set_self (by simpa using hidx)]
          rfl
        · left
          rw [List.getD_eq_getElem?_getD, List.getElem?_set_ne (Ne.symm he)]
          rcases Nat.lt_or_ge i chunk.total_chunks with h | h
          · rw [List.getElem?_replicate_of_lt h]
            rfl
          · rw [List.getElem?_eq_none_iff.mpr (by simpa using h)]
            rfl
  · rw [if_neg (by
      intro hcon
      exact hidx hcon.1)]
    refine ⟨rfl, ?_, ?_, Or.inl ⟨rfl, rfl, by simp, by simp, rfl⟩⟩
    · intro i hi
      rw [replicate_none_getD]
      simp
    · intro i
      left
      rw [replicate_none_getD]
      simp

theorem C7_timeout_restarts_assembly_witness :
    (∃ st, (⟨6, [some [9], none, none], 3, 1, some 0⟩ : VideoDecoder).frame_start_time = some st) ∧
    ((⟨6, [some [9], none, none], 3, 1, some 0⟩ : VideoDecoder).add_chunk
        (VideoChunk.new 8 1 2 false [5]) 300).1.current_frame_id = 8 ∧
    (((⟨6, [some [9], none, none], 3, 1, some 0⟩ : VideoDecoder).add_chunk
        (VideoChunk.new 8 1 2 false [5]) 300).1.chunks.getD 0 none = none ∨
     ((⟨6, [some [9], none, none], 3, 1, some 0⟩ : VideoDecoder).add_chunk
        (VideoChunk.new 8 1 2 false [5]) 300).1.chunks.getD 0 none =
       some ((VideoChunk.new 8 1 2 false [5]).decode_data.getD [])) := by
  have h := C7_timeout_restarts_assembly
    ⟨6, [some [9], none, none], 3, 1, some 0⟩
    (VideoChunk.new 8 1 2 false [5]) 300 0 rfl (by omega) (by decide)
  exact ⟨⟨0, rfl⟩, h.1, h.2.2.1 0⟩

/-! ### Video jitter buffer (`src/screen/video_decoder.rs`)

`VideoJitterBuffer` holds decoded frames sorted by `frame_id` and releases
them one per poll.  `VecDeque` is a `List` (front at the head); `Instant`
is a `Nat` millisecond timestamp; `Duration` a `Nat` count of
milliseconds.  The source's `while self.frames.len() > self.target_size * 2`
loop pops fronts until the bound holds, i.e. drops
`len - target_size * 2` fronts. -/

/-- A decoded RGBA frame (`DecodedFrame`). -/
structure DecodedFrame where
  rgba : List Nat
  width : Nat
  height : Nat
  frame_id : Nat
deriving DecidableEq

/-- `VideoJitterBuffer` state. -/
structure VideoJitterBuffer where
  frames : List DecodedFrame
  target_size : Nat
  min_delay : Nat
  last_released_id : Nat
  frame_times : List Nat
deriving DecidableEq

/-- `VideoJitterBuffer::default()`: target depth 2, minimum hold 20 ms. -/
def jbInit : VideoJitterBuffer := ⟨[], 2, 20, 0, []⟩

/-- Rust `Iterator::position`: index of the first element satisfying `p`. -/
def position {α : Type} (p : α → Bool) : List α → Option Nat
  | [] => none
  | a :: l => if p a then some 0 else (position p l).map (· + 1)

/-- `VecDeque::insert` at position `i`. -/
def insertAt {α : Type} (i : Nat) (a : α) (l : List α) : List α :=
  l.take i ++ a :: l.drop i

namespace VideoJitterBuffer

/-- The insertion step of `push`: insert the frame (and its arrival time)
before the first buffered frame with a strictly larger id, or at the back
when there is none. -/
def insertSorted (f : DecodedFrame) (now : Nat)
    (frames : List DecodedFrame) (times : List Nat) :
    List DecodedFrame × List Nat :=
  match position (fun (g : DecodedFrame) => decide (f.frame_id < g.frame_id)) frames with
  | some i => (insertAt i f frames, insertAt i now times)
  | none => (frames ++ [f], times ++ [now])

/-- `VideoJitterBuffer::push` at time `now`. -/
def push (b : VideoJitterBuffer) (f : DecodedFrame) (now : Nat) :
    VideoJitterBuffer :=
  if f.frame_id ≤ b.last_released_id ∧ b.last_released_id > 0 then b
  else
    let fr := insertSorted f now b.frames b.frame_times
    let excess := fr.1.length - b.target_size * 2
    { b with frames := fr.1.drop excess, frame_times := fr.2.drop excess }

/-- The release condition of `pop`: a frame is buffered, and the buffer is
at target depth or the oldest frame has waited at least `min_delay`. -/
def should_release (b : VideoJitterBuffer) (now : Nat) : Prop :=
  b.frame_times ≠ [] ∧
  (b.target_size ≤ b.frames.length ∨ b.min_delay ≤ now - b.frame_times.headD 0)

instance (b : VideoJitterBuffer) (now : Nat) : Decidable (b.should_release now) := by
  unfold should_release
  infer_instance

/-- `VideoJitterBuffer::pop` at time `now`. -/
def pop (b : VideoJitterBuffer) (now : Nat) :
    VideoJitterBuffer × Option DecodedFrame :=
  if b.should_release now then
    match b.frames with
    | f :: rest =>
      ({ b with frames := rest, frame_times := b.frame_times.tail,
                last_released_id := f.frame_id }, some f)
    | [] => ({ b with frame_times := b.frame_times.tail }, none)
  else (b, none)

end VideoJitterBuffer

/-- One interaction with the jitter buffer: a frame arrival or a poll. -/
inductive JitterOp where
  | pushOp (f : DecodedFrame) (now : Nat)
  | popOp (now : Nat)

/-- Run a sequence of pushes and polls, collecting the released frame ids in
order. -/
def runJB : VideoJitterBuffer → List JitterOp → VideoJitterBuffer × List Nat
  | b, [] => (b, [])
  | b, JitterOp.pushOp f t :: rest => runJB (b.push f t) rest
  | b, JitterOp.popOp t :: rest =>
    let r := b.pop t
    let r2 := runJB r.1 rest
    (r2.1, (r.2.map DecodedFrame.frame_id).toList ++ r2.2)

/-- Jitter buffer invariant: frames sorted by id (non-strictly) and all at
or above the watermark. -/
def JBInv (b : VideoJitterBuffer) : Prop :=
  (b.frames.map DecodedFrame.frame_id).Pairwise (· ≤ ·) ∧
  ∀ f ∈ b.frames, b.last_released_id ≤ f.frame_id

lemma jbInv_init : JBInv jbInit := by
  constructor
  · simp [jbInit]
  · intro f hf
    simp [jbInit] at hf

lemma mem_insertAt {α : Type} (i : Nat) (a x : α) (l : List α) :
    x ∈ insertAt i a l → x = a ∨ x ∈ l := by
  intro hx
  unfold insertAt at hx
  rcases List.mem_append.mp hx with h | h
  · exact Or.inr (List.mem_of_mem_take h)
  · rcases List.mem_cons.mp h with h | h
    · exact Or.inl h
    · exact Or.inr (List.mem_of_mem_drop h)

lemma mem_insertSorted_fst (f : DecodedFrame) (now : Nat)
    (frames : List DecodedFrame) (times : List Nat) (x : DecodedFrame) :
    x ∈ (VideoJitterBuffer.insertSorted f now frames times).1 →
      x = f ∨ x ∈ frames := by
  unfold VideoJitterBuffer.insertSorted
  cases hidx : position (fun (g : DecodedFrame) => decide (f.frame_id < g.frame_id)) frames with
  | some i =>
    intro hx
    exact mem_insertAt _ _ _ _ hx
  | none =>
    intro hx
    rcases List.mem_append.mp hx with h | h
    · exact Or.inr h
    · exact Or.inl (List.mem_singleton.mp h)

/-- Inserting at the `position` index keeps the id list sorted. -/
lemma insertSorted_pairwise (f : DecodedFrame) :
    ∀ (frames : List DecodedFrame), ∀ (now : Nat) (times : List Nat),
    (frames.map DecodedFrame.frame_id).Pairwise (· ≤ ·) →
    (((VideoJitterBuffer.insertSorted f now frames times).1.map
      DecodedFrame.frame_id).Pairwise (· ≤ ·)) := by
  intro frames
  induction frames with
  | nil =>
    intro now times _
    simp [VideoJitterBuffer.insertSorted, position]
  | cons g rest ih =>
    intro now times hs
    have hgle : ∀ y ∈ rest.map DecodedFrame.frame_id, g.frame_id ≤ y :=
      (List.pairwise_cons.mp hs).1
    have hrest : (rest.map DecodedFrame.frame_id).Pairwise (· ≤ ·) :=
      (List.pairwise_cons.mp hs).2
    unfold VideoJitterBuffer.insertSorted
    rw [show position (fun (g : DecodedFrame) => decide (f.frame_id < g.frame_id)) (g :: rest) =
      if decide (f.frame_id < g.frame_id) then some 0
      else (position (fun (g : DecodedFrame) => decide (f.frame_id < g.frame_id)) rest).map (· + 1)
      from rfl]
    by_cases hg : f.frame_id < g.frame_id
    · rw [if_pos (by simpa using hg)]
      show (((insertAt 0 f (g :: rest)).map DecodedFrame.frame_id).Pairwise (· ≤ ·))
      unfold insertAt
      simp only [List.take_zero, List.drop_zero, List.nil_append, List.map_cons]
      refine List.Pairwise.cons ?_ hs
      intro y hy
      simp only [List.map_cons, List.mem_cons] at hy
      rcases hy with hy | hy
      · omega
      · have := hgle y hy
        omega
    · rw [if_neg (by simpa using hg)]
      have ihr := ih now times.tail hrest
      unfold VideoJitterBuffer.insertSorted at ihr
      cases hidx : position (fun (g : DecodedFrame) => decide (f.frame_id < g.frame_id)) rest with
      | some i =>
        rw [hidx] at ihr
        show (((g :: insertAt i f rest)).map DecodedFrame.frame_id).Pairwise (· ≤ ·)
        simp only [List.map_cons]
        refine List.Pairwise.cons ?_ ihr
        intro y hy
        rcases List.mem_map.mp hy with ⟨z, hz, hzy⟩
        subst hzy
        rcases mem_insertAt _ _ _ _ hz with h | h
        · subst h
          omega
        · exact hgle z.frame_id (List.mem_map.mpr ⟨z, h, rfl⟩)
      | none =>
        rw [hidx] at ihr
        show (((g :: (rest ++ [f]))).map DecodedFrame.frame_id).Pairwise (· ≤ ·)
        simp only [List.map_cons]
        refine List.Pairwise.cons ?_ ihr
        intro y hy
        rcases List.mem_map.mp hy with ⟨z, hz, hzy⟩
        subst hzy
        rcases List.mem_append.mp hz with h | h
        · exact hgle z.frame_id (List.mem_map.mpr ⟨z, h, rfl⟩)
        · rcases List.mem_singleton.mp h with rfl
          omega

/-- `push` preserves the invariant and the watermark. -/
lemma push_inv (b : VideoJitterBuffer) (f : DecodedFrame) (now : Nat)
    (hb : JBInv b) :
    JBInv (b.push f now) ∧
    (b.push f now).last_released_id = b.last_released_id := by
  unfold VideoJitterBuffer.push
  by_cases hguard : f.frame_id ≤ b.last_released_id ∧ b.last_released_id > 0
  · rw [if_pos hguard]
    exact ⟨hb, rfl⟩
  · rw [if_neg hguard]
    have hwm : b.last_released_id ≤ f.frame_id := by
      rcases Nat.lt_or_ge b.last_released_id 1 with h | h
      · omega
      · by_contra hc
        exact hguard ⟨by omega, by omega⟩
    refine ⟨⟨?_, ?_⟩, rfl⟩
    · show ((((VideoJitterBuffer.insertSorted f now b.frames b.frame_times).1.drop
        ((VideoJitterBuffer.insertSorted f now b.frames b.frame_times).1.length - b.target_size * 2)).map
        DecodedFrame.frame_id).Pairwise (· ≤ ·))
      rw [List.map_drop]
      exact List.Pairwise.sublist (List.drop_sublist _ _)
        (insertSorted_pairwise f b.frames now b.frame_times hb.1)
    · intro g hg
      have hg2 := List.mem_of_mem_drop hg
      rcases mem_insertSorted_fst _ _ _ _ _ hg2 with h | h
      · subst h
        exact hwm
      · exact hb.2 g h

/-- `pop` preserves the invariant; the watermark never decreases and equals
the released id when a frame is released. -/
lemma pop_inv (b : VideoJitterBuffer) (now : Nat) (hb : JBInv b) :
    JBInv (b.pop now).1 ∧
    b.last_released_id ≤ (b.pop now).1.last_released_id ∧
    (∀ f, (b.pop now).2 = some f →
      b.last_released_id ≤ f.frame_id ∧
      (b.pop now).1.last_released_id = f.frame_id) := by
  unfold VideoJitterBuffer.pop
  by_cases hrel : b.should_release now
  · rw [if_pos hrel]
    have hsor := hb.1
    have hwm := hb.2
    cases hfr : b.frames with
    | nil =>
      refine ⟨⟨by simp, by simp⟩, le_refl _, ?_⟩
      intro f hf
      simp at hf
    | cons f rest =>
      rw [hfr] at hsor hwm
      refine ⟨⟨(List.pairwise_cons.mp hsor).2, ?_⟩, ?_, ?_⟩
      · intro g hg
        exact (List.pairwise_cons.mp hsor).1 g.frame_id
          (List.mem_map.mpr ⟨g, hg, rfl⟩)
      · exact hwm f (by simp)
      · intro g hg
        cases hg
        exact ⟨hwm f (by simp), rfl⟩
  · rw [if_neg hrel]
    refine ⟨hb, le_refl _, ?_⟩
    intro f hf
    simp at hf

/-- Running any op sequence from an invariant state keeps the invariant,
never decreases the watermark, and the released ids prefixed with the
initial watermark form a non-decreasing chain. -/
lemma runJB_inv : ∀ (ops : List JitterOp) (b : VideoJitterBuffer),
    JBInv b →
    JBInv (runJB b ops).1 ∧
    b.last_released_id ≤ (runJB b ops).1.last_released_id ∧
    List.Chain' (· ≤ ·) (b.last_released_id :: (runJB b ops).2) := by
  intro ops
  induction ops with
  | nil =>
    intro b hb
    exact ⟨hb, le_refl _, List.chain'_singleton _⟩
  | cons op rest ih =>
    intro b hb
    cases op with
    | pushOp f t =>
      have hp := push_inv b f t hb
      have hrun := ih (b.push f t) hp.1
      rw [hp.2] at hrun
      exact hrun
    | popOp t =>
      have hp := pop_inv b t hb
      have hrun := ih (b.pop t).1 hp.1
      cases hrel : (b.pop t).2 with
      | none =>
        refine ⟨hrun.1, le_trans hp.2.1 hrun.2.1, ?_⟩
        show List.Chain' (· ≤ ·)
          (b.last_released_id ::
            (((b.pop t).2.map DecodedFrame.frame_id).toList ++ (runJB (b.pop t).1 rest).2))
        rw [hrel]
        show List.Chain' (· ≤ ·) (b.last_released_id :: (runJB (b.pop t).1 rest).2)
        rcases List.chain'_cons'.mp hrun.2.2 with ⟨h1, h2⟩
        refine List.chain'_cons'.mpr ⟨?_, h2⟩
        intro y hy
        have := h1 y hy
        have := hp.2.1
        omega
      | some f =>
        have hrid := hp.2.2 f hrel
        refine ⟨hrun.1, le_trans hp.2.1 hrun.2.1, ?_⟩
        show List.Chain' (· ≤ ·)
          (b.last_released_id ::
            (((b.pop t).2.map DecodedFrame.frame_id).toList ++ (runJB (b.pop t).1 rest).2))
        rw [hrel]
        show List.Chain' (· ≤ ·)
          (b.last_released_id :: f.frame_id :: (runJB (b.pop t).1 rest).2)
        refine List.Chain'.cons hrid.1 ?_
        rw [← hrid.2]
        exact hrun.2.2

/-- Concatenated runs compose. -/
lemma runJB_append : ∀ (l1 l2 : List JitterOp) (b : VideoJitterBuffer),
    runJB b (l1 ++ l2) =
      ((runJB (runJB b l1).1 l2).1,
       (runJB b l1).2 ++ (runJB (runJB b l1).1 l2).2) := by
  intro l1
  induction l1 with
  | nil =>
    intro l2 b
    simp [runJB]
  | cons op rest ih =>
    intro l2 b
    cases op with
    | pushOp f t =>
      show runJB (b.push f t) (rest ++ l2) = _
      rw [ih l2 (b.push f t)]
      rfl
    | popOp t =>
      simp only [runJB, List.append_eq]
      rw [ih l2 (b.pop t).1]
      simp [List.append_assoc]

/-- C2 (amended): from the default jitter buffer, over any interleaving of
pushes and pops, the sequence of released frame ids is non-decreasing
(prefixed with the initial watermark 0), and `last_released_id` is
non-decreasing over the whole history. -/
theorem C2_jitter_release_monotone (l1 l2 : List JitterOp) :
    List.Chain' (· ≤ ·)
      (jbInit.last_released_id :: (runJB jbInit (l1 ++ l2)).2) ∧
    (runJB jbInit l1).1.last_released_id ≤
      (runJB jbInit (l1 ++ l2)).1.last_released_id := by
  have h1 := runJB_inv (l1 ++ l2) jbInit jbInv_init
  refine ⟨h1.2.2, ?_⟩
  rw [runJB_append]
  exact (runJB_inv l2 (runJB jbInit l1).1 (runJB_inv l1 jbInit jbInv_init).1).2.1

/-- C2 counterexample: pushing the same frame id twice (before any poll)
makes two successive polls release the same id twice, and the second
release is *at* `last_released_id`; the release sequence is not strictly
increasing. -/
theorem C2_counterexample :
    (runJB jbInit
      [JitterOp.pushOp ⟨[], 0, 0, 1⟩ 0, JitterOp.pushOp ⟨[], 0, 0, 1⟩ 0,
       JitterOp.popOp 0, JitterOp.popOp 30]).2 = [1, 1] := by
  decide

/-! ### C3: keyframe marking of produced chunk lists -/

lemma fragmentEncoded_length (K : Nat) (p : List Nat) :
    (fragmentEncoded K p).length = (chunksOf4000 p).length := by
  unfold fragmentEncoded
  rw [List.length_map, List.enum_length]

lemma fragmentEncoded_getElem (K : Nat) (p : List Nat) (i : Nat)
    (h : i < (fragmentEncoded K p).length) :
    (fragmentEncoded K p).get ⟨i, h⟩ =
      VideoChunk.new K (i % 65536) (((p.length + 4000 - 1) / 4000) % 65536)
        (i == 0) ((chunksOf4000 p).getD i []) := by
  have hlen : i < (chunksOf4000 p).length := by
    rw [← fragmentEncoded_length K p]
    exact h
  unfold fragmentEncoded
  rw [List.get_eq_getElem]
  simp only [fragmentEncoded] at h
  rw [List.getElem_map]
  rw [List.getElem_enum]
  rw [List.getD_eq_getElem _ _ hlen]

/-- Chunk membership in a produced chunk list. -/
lemma mem_fragmentEncoded (K : Nat) (p : List Nat) (c : VideoChunk) :
    c ∈ fragmentEncoded K p ↔
      ∃ i, i < (chunksOf4000 p).length ∧
        c = VideoChunk.new K (i % 65536)
          (((p.length + 4000 - 1) / 4000) % 65536) (i == 0)
          ((chunksOf4000 p).getD i []) := by
  constructor
  · intro hc
    rcases List.mem_iff_get.mp hc with ⟨⟨i, hi⟩, hg⟩
    refine ⟨i, by rw [← fragmentEncoded_length K p]; exact hi, ?_⟩
    rw [← hg, fragmentEncoded_getElem]
  · rintro ⟨i, hi, rfl⟩
    have hi2 : i < (fragmentEncoded K p).length := by
      rw [fragmentEncoded_length]
      exact hi
    rw [← fragmentEncoded_getElem K p i hi2]
    exact List.get_mem _ _ _

/-- C3 (amended): in every chunk list the encoder produces, `is_keyframe`
is true exactly on the first chunk (index 0), for every frame — the
encoder sets `idx == 0` and never inspects actual keyframe status. -/
theorem C3_keyframe_flag_on_first_chunk (K : Nat) (p : List Nat) (i : Nat)
    (h : i < (fragmentEncoded K p).length) :
    ((fragmentEncoded K p).get ⟨i, h⟩).is_keyframe = true ↔ i = 0 := by
  rw [fragmentEncoded_getElem]
  show (i == 0) = true ↔ i = 0
  simp

theorem C3_keyframe_flag_on_first_chunk_witness :
    0 < (fragmentEncoded 9 [1, 2, 3]).length ∧
    (((fragmentEncoded 9 [1, 2, 3]).get
      ⟨0, by decide⟩).is_keyframe = true ↔ 0 = 0) :=
  ⟨by decide, C3_keyframe_flag_on_first_chunk 9 [1, 2, 3] 0 (by decide)⟩

/-- The concrete 4001-byte payload of the counterexample, kept behind a
name so that tactics treat it symbolically. -/
def c3payload : List Nat := List.replicate 4001 0

/-- C3 counterexample: a 4001-byte frame yields two chunks flagged
`[true, false]`: the *first* chunk carries `is_keyframe = true` and the
last carries `false`, whatever the actual keyframe status of the frame —
contradicting "is_keyframe is true exactly on the last chunk of a
keyframe-bearing frame (and false on every chunk otherwise)". -/
theorem C3_counterexample :
    (fragmentEncoded 0 c3payload).map VideoChunk.is_keyframe =
      [true, false] := by
  have hplen : c3payload.length = 4001 := by
    show (List.replicate 4001 0).length = 4001
    rw [List.length_replicate]
  have hlen : (fragmentEncoded 0 c3payload).length = 2 := by
    rw [fragmentEncoded_length, chunksOf4000_length, hplen]
  refine List.ext_getElem (by rw [List.length_map, hlen]; rfl) ?_
  intro i h1 h2
  rw [List.getElem_map]
  have hifrag : i < (fragmentEncoded 0 c3payload).length := by
    rw [List.length_map] at h1
    exact h1
  rw [← List.get_eq_getElem _ ⟨i, hifrag⟩, fragmentEncoded_getElem]
  have hi2 : i < 2 := by
    rw [hlen] at hifrag
    exact hifrag
  show (i == 0) = [true, false][i]
  interval_cases i <;> rfl

/-! ### Reassembly machinery for C1 and C8

`mkChunk K p i` is the `i`-th chunk the encoder produces for payload `p`
under frame id `K`; `dCount I N` counts the distinct chunk indices below
`N` occurring in the arrival-index list `I`; `SlotsInv` is the assembler
invariant while a frame is partially assembled. -/

/-- The `i`-th chunk of `fragmentEncoded K p`. -/
def mkChunk (K : Nat) (p : List Nat) (i : Nat) : VideoChunk :=
  VideoChunk.new K (i % 65536) (((p.length + 4000 - 1) / 4000) % 65536)
    (i == 0) ((chunksOf4000 p).getD i [])

/-- Number of distinct indices below `N` present in `I`. -/
def dCount (I : List Nat) (N : Nat) : Nat :=
  (List.range N).countP fun i => decide (i ∈ I)

lemma dCount_nil (N : Nat) : dCount [] N = 0 := by
  unfold dCount
  rw [List.countP_eq_zero]
  intro a _
  simp

lemma dCount_congr (I J : List Nat) (N : Nat)
    (h : ∀ i, i ∈ I ↔ i ∈ J) : dCount I N = dCount J N := by
  unfold dCount
  apply List.countP_congr
  intro a _
  simp [h a]

lemma dCount_append_mem (I : List Nat) (j N : Nat) (hj : j ∈ I) :
    dCount (I ++ [j]) N = dCount I N := by
  apply dCount_congr
  intro i
  constructor
  · intro h
    rcases List.mem_append.mp h with h | h
    · exact h
    · rcases List.mem_singleton.mp h with rfl
      exact hj
  · intro h
    exact List.mem_append.mpr (Or.inl h)

lemma countP_append_new (I : List Nat) (j : Nat) (hjI : j ∉ I) :
    ∀ l : List Nat, l.Nodup → j ∈ l →
    (l.countP fun i => decide (i ∈ I ++ [j])) =
      (l.countP fun i => decide (i ∈ I)) + 1 := by
  intro l
  induction l with
  | nil =>
    intro _ h
    simp at h
  | cons a l ih =>
    intro hnd hjl
    have hndl : l.Nodup := (List.nodup_cons.mp hnd).2
    have hanl : a ∉ l := (List.nodup_cons.mp hnd).1
    rw [List.countP_cons, List.countP_cons]
    rcases List.mem_cons.mp hjl with rfl | hjl2
    · have h1 : (decide (j ∈ I ++ [j])) = true := by simp
      have h2 : (decide (j ∈ I)) = false := by simp [hjI]
      rw [h1, h2]
      have hcong : (l.countP fun i => decide (i ∈ I ++ [j])) =
          (l.countP fun i => decide (i ∈ I)) := by
        apply List.countP_congr
        intro b hb
        have hbj : b ≠ j := by
          intro hbeq
          subst hbeq
          exact hanl hb
        simp only [decide_eq_true_eq]
        rw [List.mem_append, List.mem_singleton]
        constructor
        · intro h
          rcases h with h | h
          · exact h
          · exact absurd h hbj
        · intro h
          exact Or.inl h
      rw [hcong]
      simp
    · have haj : a ≠ j := by
        intro haeq
        subst haeq
        exact hanl hjl2
      have hsame : (decide (a ∈ I ++ [j])) = (decide (a ∈ I)) := by
        refine decide_eq_decide.mpr ?_
        rw [List.mem_append, List.mem_singleton]
        constructor
        · intro h
          rcases h with h | h
          · exact h
          · exact absurd h haj
        · intro h
          exact Or.inl h
      rw [hsame, ih hndl hjl2]
      by_cases haI : a ∈ I <;> simp [haI]

lemma dCount_append_not_mem (I : List Nat) (j N : Nat)
    (hjN : j < N) (hjI : j ∉ I) :
    dCount (I ++ [j]) N = dCount I N + 1 := by
  unfold dCount
  exact countP_append_new I j hjI (List.range N) (List.nodup_range N)
    (List.mem_range.mpr hjN)

lemma dCount_le (I : List Nat) (N : Nat) : dCount I N ≤ N := by
  calc dCount I N ≤ (List.range N).length := List.countP_le_length _
  _ = N := List.length_range N

lemma dCount_lt_of_missing (I : List Nat) (N k : Nat)
    (hk : k < N) (hkI : k ∉ I) : dCount I N < N := by
  rcases Nat.lt_or_ge (dCount I N) N with h | h
  · exact h
  · exfalso
    have heq : dCount I N = N := le_antisymm (dCount_le I N) h
    unfold dCount at heq
    have := List.countP_eq_length.mp (by rw [heq, List.length_range])
    have hmem := this k (List.mem_range.mpr hk)
    simp at hmem
    exact hkI hmem

lemma dCount_eq_iff_all (I : List Nat) (N : Nat) :
    dCount I N = N ↔ ∀ i, i < N → i ∈ I := by
  unfold dCount
  constructor
  · intro h i hi
    have := List.countP_eq_length.mp (by rw [h, List.length_range])
    have hmem := this i (List.mem_range.mpr hi)
    simpa using hmem
  · intro h
    rw [List.countP_eq_length.mpr]
    · exact List.length_range N
    · intro a ha
      simp only [decide_eq_true_eq]
      exact h a (List.mem_range.mp ha)

lemma assembleData_acc (f : List Nat → Option (List Nat) → List Nat)
    (hf : f = fun acc c => match c with | some d => acc ++ d | none => acc) :
    ∀ (slots : List (Option (List Nat))) (acc : List Nat),
      slots.foldl f acc = acc ++ slots.foldl f [] := by
  intro slots
  induction slots with
  | nil =>
    intro acc
    simp
  | cons c rest ih =>
    intro acc
    rw [List.foldl_cons, List.foldl_cons, ih (f acc c), ih (f [] c)]
    rw [hf]
    cases c <;> simp

/-- Assembling a fully filled slot list concatenates the parts in order. -/
lemma assembleData_map_some : ∀ parts : List (List Nat),
    VideoDecoder.assembleData (parts.map some) = parts.flatten := by
  intro parts
  induction parts with
  | nil => rfl
  | cons d rest ih =>
    unfold VideoDecoder.assembleData at ih ⊢
    rw [List.map_cons, List.foldl_cons]
    rw [assembleData_acc _ rfl]
    simp only
    rw [ih, List.flatten_cons]
    simp

/-- Feeding concatenated sequences composes. -/
lemma feedAll_append : ∀ (l1 l2 : List (VideoChunk × Nat)) (s : VideoDecoder),
    feedAll s (l1 ++ l2) =
      ((feedAll (feedAll s l1).1 l2).1,
       (feedAll s l1).2 ++ (feedAll (feedAll s l1).1 l2).2) := by
  intro l1
  induction l1 with
  | nil =>
    intro l2 s
    simp [feedAll]
  | cons e rest ih =>
    intro l2 s
    cases e with
    | mk c t =>
      simp only [feedAll, List.append_eq]
      rw [ih l2 (s.add_chunk c t).1]
      simp [List.append_assoc]

lemma getD_default_irrel {α : Type} (l : List α) (i : Nat) (d1 d2 : α)
    (h : i < l.length) : l.getD i d1 = l.getD i d2 := by
  rw [List.getD_eq_getElem _ _ h, List.getD_eq_getElem _ _ h]

lemma mkChunk_chunk_idx (K : Nat) (p : List Nat) (i : Nat)
    (hi : i < 65536) : (mkChunk K p i).chunk_idx = i := by
  show i % 65536 = i
  exact Nat.mod_eq_of_lt hi

lemma mkChunk_total (K : Nat) (p : List Nat) (i : Nat)
    (hN : (chunksOf4000 p).length ≤ 65535) :
    (mkChunk K p i).total_chunks = (chunksOf4000 p).length := by
  show ((p.length + 4000 - 1) / 4000) % 65536 = (chunksOf4000 p).length
  rw [← chunksOf4000_length]
  exact Nat.mod_eq_of_lt (by omega)

lemma mkChunk_decode (K : Nat) (p : List Nat) (i : Nat)
    (hbytes : ∀ b ∈ p, b < 256) (hi : i < (chunksOf4000 p).length) :
    (mkChunk K p i).decode_data = some ((chunksOf4000 p).getD i []) := by
  show base64Decode (base64Encode ((chunksOf4000 p).getD i [])) = _
  apply base64_roundtrip
  intro b hb
  refine hbytes b ?_
  refine chunksOf4000_subset p ((chunksOf4000 p).getD i []) ?_ b hb
  rw [List.getD_eq_getElem _ _ hi]
  exact List.getElem_mem _

lemma mem_fragment_iff_mk (K : Nat) (p : List Nat) (c : VideoChunk) :
    c ∈ fragmentEncoded K p ↔
      ∃ i, i < (chunksOf4000 p).length ∧ c = mkChunk K p i := by
  rw [mem_fragmentEncoded]
  rfl

/-- Assembler invariant while frame `(p, K)` is partially assembled, after
the distinct indices of `I` (all below the chunk count) have been stored;
the assembly began inside the window `[t0, t0 + 200]`. -/
def SlotsInv (p : List Nat) (K t0 : Nat) (I : List Nat)
    (s : VideoDecoder) : Prop :=
  s.current_frame_id = K ∧
  s.total_chunks = (chunksOf4000 p).length ∧
  s.chunks.length = (chunksOf4000 p).length ∧
  s.received_count = dCount I (chunksOf4000 p).length ∧
  dCount I (chunksOf4000 p).length < (chunksOf4000 p).length ∧
  (∀ i, i < (chunksOf4000 p).length →
    s.chunks.getD i none =
      if i ∈ I then some ((chunksOf4000 p).getD i []) else none) ∧
  (∃ t, s.frame_start_time = some t ∧ t0 ≤ t ∧ t ≤ t0 + 200) ∧
  (∀ i ∈ I, i < (chunksOf4000 p).length)

/-- Either nothing has been fed yet, or the invariant holds. -/
def StateOK (p : List Nat) (K t0 : Nat) (I : List Nat)
    (s : VideoDecoder) : Prop :=
  (I = [] ∧ s = VideoDecoder.init) ∨ SlotsInv p K t0 I s

lemma after_reset_of_first (chunk : VideoChunk) (t : Nat)
    (s : VideoDecoder) (hfirst : s.total_chunks = 0) :
    s.after_reset chunk t =
      ⟨chunk.frame_id, List.replicate chunk.total_chunks none,
       chunk.total_chunks, 0, some t⟩ := by
  unfold VideoDecoder.after_reset
  rw [if_pos (Or.inl hfirst)]

lemma after_reset_of_inv (p : List Nat) (K t0 : Nat) (I : List Nat)
    (s : VideoDecoder) (hinv : SlotsInv p K t0 I s)
    (hp : p ≠ []) (j t : Nat) (ht1 : t ≤ t0 + 200) :
    s.after_reset (mkChunk K p j) t = s := by
  have hN1 : 1 ≤ (chunksOf4000 p).length := by
    cases p with
    | nil => exact absurd rfl hp
    | cons x xs =>
      rw [chunksOf4000_cons]
      simp
  unfold VideoDecoder.after_reset
  rw [if_neg]
  rintro (h1 | h2 | h3)
  · rw [hinv.2.1] at h1
    omega
  · have hfid : (mkChunk K p j).frame_id = K := rfl
    rcases h2 with h2 | h2
    · rw [hfid, hinv.1] at h2
      omega
    · rw [hfid] at h2
      rw [hinv.1] at h2
      omega
  · rcases h3 with ⟨u, hu, hc⟩
    rcases hinv.2.2.2.2.2.2.1 with ⟨t2, ht2, ht2a, ht2b⟩
    rw [ht2] at hu
    cases hu
    omega

/-- The state right after the initial reset satisfies the invariant with no
stored index. -/
lemma slotsInv_of_init_reset (p : List Nat) (K t0 : Nat)
    (hp : p ≠ []) (hN : (chunksOf4000 p).length ≤ 65535)
    (j t : Nat) (ht0 : t0 ≤ t) (ht1 : t ≤ t0 + 200) :
    SlotsInv p K t0 []
      ⟨(mkChunk K p j).frame_id,
       List.replicate (mkChunk K p j).total_chunks none,
       (mkChunk K p j).total_chunks, 0, some t⟩ := by
  have hN1 : 1 ≤ (chunksOf4000 p).length := by
    cases p with
    | nil => exact absurd rfl hp
    | cons x xs =>
      rw [chunksOf4000_cons]
      simp
  have htot := mkChunk_total K p j hN
  refine ⟨rfl, htot, ?_, ?_, ?_, ?_, ⟨t, rfl, ht0, ht1⟩, ?_⟩
  · rw [List.length_replicate, htot]
  · rw [dCount_nil]
  · rw [dCount_nil]
    omega
  · intro i hi
    rw [replicate_none_getD]
    simp only [List.not_mem_nil, if_false]
    rw [if_pos]
    rw [htot]
    exact hi
  · intro i hi
    simp at hi

/-- Duplicate chunk: its slot is already filled, the state is unchanged. -/
lemma store_chunk_dup (p : List Nat) (K t0 : Nat) (I : List Nat)
    (s : VideoDecoder) (hinv : SlotsInv p K t0 I s)
    (hN : (chunksOf4000 p).length ≤ 65535)
    (j : Nat) (hj : j < (chunksOf4000 p).length) (hjI : j ∈ I) :
    s.store_chunk (mkChunk K p j) = (s, none) := by
  have hidx := mkChunk_chunk_idx K p j (by omega)
  unfold VideoDecoder.store_chunk
  rw [if_neg (by
    rw [hinv.1]
    intro hcon
    exact hcon rfl)]
  rw [if_neg]
  intro hcon
  rcases hcon with ⟨h1, h2⟩
  rw [hidx] at h2
  rw [getD_default_irrel _ _ _ none (by rw [hinv.2.2.1]; exact hj)] at h2
  rw [hinv.2.2.2.2.2.1 j hj, if_pos hjI] at h2
  cases h2

/-- New chunk, frame still incomplete: the slot is stored, nothing emitted,
and the invariant advances. -/
lemma store_chunk_new_incomplete (p : List Nat) (K t0 : Nat) (I : List Nat)
    (s : VideoDecoder) (hinv : SlotsInv p K t0 I s)
    (hbytes : ∀ b ∈ p, b < 256)
    (hN : (chunksOf4000 p).length ≤ 65535)
    (j : Nat) (hj : j < (chunksOf4000 p).length) (hjI : j ∉ I)
    (hlt : dCount I (chunksOf4000 p).length + 1 < (chunksOf4000 p).length) :
    (s.store_chunk (mkChunk K p j)).2 = none ∧
    SlotsInv p K t0 (I ++ [j]) (s.store_chunk (mkChunk K p j)).1 := by
  have hidx := mkChunk_chunk_idx K p j (by omega)
  have hlen : j < s.chunks.length := by
    rw [hinv.2.2.1]
    exact hj
  have hslot : s.chunks.getD j (some []) = none := by
    rw [getD_default_irrel _ _ _ none hlen]
    rw [hinv.2.2.2.2.2.1 j hj, if_neg hjI]
  unfold VideoDecoder.store_chunk
  rw [if_neg (by
    rw [hinv.1]
    intro hcon
    exact hcon rfl)]
  rw [if_pos (by rw [hidx]; exact ⟨hlen, hslot⟩)]
  rw [if_neg (by
    rw [hinv.2.2.2.1, hinv.2.1]
    omega)]
  refine ⟨rfl, hinv.1, hinv.2.1, ?_, ?_, ?_, ?_, ?_, ?_⟩
  · simp only [List.length_set]
    exact hinv.2.2.1
  · simp only
    rw [hinv.2.2.2.1, dCount_append_not_mem I j _ hj hjI]
  · rw [dCount_append_not_mem I j _ hj hjI]
    exact hlt
  · intro i hi
    simp only
    rw [hidx]
    rcases eq_or_ne i j with rfl | hne
    · rw [List.getD_eq_getElem _ _ (by simpa using hlen),
        List.getElem_set_self (by simpa using hlen)]
      rw [if_pos (by simp), mkChunk_decode K p i hbytes hj]
      rfl
    · rw [List.getD_eq_getElem _ _ (by simpa [List.length_set] using (by rw [hinv.2.2.1]; exact hi : i < s.chunks.length)),
        List.getElem_set_ne (by omega)]
      rw [← List.getD_eq_getElem s.chunks none (by rw [hinv.2.2.1]; exact hi)]
      rw [hinv.2.2.2.2.2.1 i hi]
      have hmem : (i ∈ I ++ [j]) ↔ i ∈ I := by
        rw [List.mem_append, List.mem_singleton]
        constructor
        · intro h
          rcases h with h | h
          · exact h
          · exact absurd h hne
        · exact Or.inl
      by_cases hiI : i ∈ I
      · rw [if_pos hiI, if_pos (hmem.mpr hiI)]
      · rw [if_neg hiI, if_neg (fun hc => hiI (hmem.mp hc))]
  · rcases hinv.2.2.2.2.2.2.1 with ⟨t, ht, ht0, ht1⟩
    exact ⟨t, ht, ht0, ht1⟩
  · intro i hi
    rcases List.mem_append.mp hi with h | h
    · exact hinv.2.2.2.2.2.2.2 i h
    · rcases List.mem_singleton.mp h with rfl
      exact hj

/-- New chunk completing the frame: the assembler emits exactly the
original payload for frame `K` and clears its state. -/
lemma store_chunk_new_complete (p : List Nat) (K t0 : Nat) (I : List Nat)
    (s : VideoDecoder) (hinv : SlotsInv p K t0 I s)
    (hbytes : ∀ b ∈ p, b < 256)
    (hN : (chunksOf4000 p).length ≤ 65535)
    (j : Nat) (hj : j < (chunksOf4000 p).length) (hjI : j ∉ I)
    (heq : dCount I (chunksOf4000 p).length + 1 = (chunksOf4000 p).length) :
    s.store_chunk (mkChunk K p j) = (⟨K, [], 0, 0, none⟩, some (p, K)) := by
  have hidx := mkChunk_chunk_idx K p j (by omega)
  have hlen : j < s.chunks.length := by
    rw [hinv.2.2.1]
    exact hj
  have hslot : s.chunks.getD j (some []) = none := by
    rw [getD_default_irrel _ _ _ none hlen]
    rw [hinv.2.2.2.2.2.1 j hj, if_neg hjI]
  have hall : ∀ i, i < (chunksOf4000 p).length → i ∈ I ++ [j] := by
    refine (dCount_eq_iff_all (I ++ [j]) _).mp ?_
    rw [dCount_append_not_mem I j _ hj hjI]
    exact heq
  unfold VideoDecoder.store_chunk
  rw [if_neg (by
    rw [hinv.1]
    intro hcon
    exact hcon rfl)]
  rw [if_pos (by rw [hidx]; exact ⟨hlen, hslot⟩)]
  rw [if_pos (by rw [hinv.2.2.2.1, hinv.2.1]; exact heq)]
  have hfull : s.chunks.set (mkChunk K p j).chunk_idx
      (some ((mkChunk K p j).decode_data.getD [])) =
      (chunksOf4000 p).map some := by
    refine List.ext_getElem ?_ ?_
    · rw [List.length_set, List.length_map]
      exact hinv.2.2.1
    · intro i h1 h2
      have hiN : i < (chunksOf4000 p).length := by
        simpa using h2
      rw [List.getElem_map]
      simp only [hidx]
      rcases eq_or_ne i j with rfl | hne
      · rw [List.getElem_set_self (by simpa using hlen)]
        rw [mkChunk_decode K p i hbytes hj]
        rw [← List.getD_eq_getElem _ [] hiN]
        rfl
      · rw [List.getElem_set_ne (by omega)]
        have := hinv.2.2.2.2.2.1 i hiN
        rw [getD_default_irrel _ _ none (some []) (by rw [hinv.2.2.1]; exact hiN)] at this
        rw [getD_default_irrel _ _ (some []) none (by rw [hinv.2.2.1]; exact hiN)] at this
        rw [List.getD_eq_getElem _ none (by rw [hinv.2.2.1]; exact hiN)] at this
        rw [this]
        have hiI : i ∈ I := by
          rcases List.mem_append.mp (hall i hiN) with h | h
          · exact h
          · exact absurd (List.mem_singleton.mp h) hne
        rw [if_pos hiI, List.getD_eq_getElem _ [] hiN]
  rw [hfull, assembleData_map_some, chunksOf4000_flatten, hinv.1]

/-- One `add_chunk` step from a reachable state: a chunk of the frame being
assembled, arriving inside the window, either leaves the frame incomplete
(no emission, invariant advances by its index) or completes it (the
original payload is emitted exactly at the moment the last distinct index
is stored). -/
lemma addChunk_step (p : List Nat) (K t0 : Nat)
    (hp : p ≠ []) (hbytes : ∀ b ∈ p, b < 256)
    (hN : (chunksOf4000 p).length ≤ 65535)
    (I : List Nat) (s : VideoDecoder) (hok : StateOK p K t0 I s)
    (j : Nat) (hj : j < (chunksOf4000 p).length)
    (t : Nat) (ht0 : t0 ≤ t) (ht1 : t ≤ t0 + 200) :
    (dCount (I ++ [j]) (chunksOf4000 p).length < (chunksOf4000 p).length →
      (s.add_chunk (mkChunk K p j) t).2 = none ∧
      StateOK p K t0 (I ++ [j]) (s.add_chunk (mkChunk K p j) t).1) ∧
    (dCount (I ++ [j]) (chunksOf4000 p).length = (chunksOf4000 p).length →
      s.add_chunk (mkChunk K p j) t = (⟨K, [], 0, 0, none⟩, some (p, K))) := by
  rcases hok with ⟨hI, hs⟩ | hinv
  · subst hI
    subst hs
    have hreset := after_reset_of_first (mkChunk K p j) t VideoDecoder.init rfl
    have hinv0 := slotsInv_of_init_reset p K t0 hp hN j t ht0 ht1
    have hdc : dCount ([] ++ [j]) (chunksOf4000 p).length =
        dCount [] (chunksOf4000 p).length + 1 :=
      dCount_append_not_mem [] j _ hj (by simp)
    rw [dCount_nil] at hdc
    constructor
    · intro hlt
      unfold VideoDecoder.add_chunk
      rw [hreset]
      have := store_chunk_new_incomplete p K t0 []
        ⟨(mkChunk K p j).frame_id,
         List.replicate (mkChunk K p j).total_chunks none,
         (mkChunk K p j).total_chunks, 0, some t⟩
        hinv0 hbytes hN j hj (by simp) (by rw [dCount_nil]; omega)
      exact ⟨this.1, Or.inr this.2⟩
    · intro heq
      unfold VideoDecoder.add_chunk
      rw [hreset]
      exact store_chunk_new_complete p K t0 []
        ⟨(mkChunk K p j).frame_id,
         List.replicate (mkChunk K p j).total_chunks none,
         (mkChunk K p j).total_chunks, 0, some t⟩
        hinv0 hbytes hN j hj (by simp) (by rw [dCount_nil]; omega)
  · have hreset := after_reset_of_inv p K t0 I s hinv hp j t ht1
    by_cases hjI : j ∈ I
    · have hdc : dCount (I ++ [j]) (chunksOf4000 p).length =
          dCount I (chunksOf4000 p).length := dCount_append_mem I j _ hjI
      constructor
      · intro hlt
        unfold VideoDecoder.add_chunk
        rw [hreset, store_chunk_dup p K t0 I s hinv hN j hj hjI]
        refine ⟨rfl, Or.inr ?_⟩
        have hmem : ∀ i, (i ∈ I ++ [j]) ↔ i ∈ I := by
          intro i
          rw [List.mem_append, List.mem_singleton]
          constructor
          · intro h
            rcases h with h | h
            · exact h
            · rw [h]
              exact hjI
          · exact Or.inl
        refine ⟨hinv.1, hinv.2.1, hinv.2.2.1, ?_, ?_, ?_,
          hinv.2.2.2.2.2.2.1, ?_⟩
        · rw [hdc]
          exact hinv.2.2.2.1
        · rw [hdc]
          exact hinv.2.2.2.2.1
        · intro i hi
          rw [hinv.2.2.2.2.2.1 i hi]
          by_cases hiI : i ∈ I
          · rw [if_pos hiI, if_pos ((hmem i).mpr hiI)]
          · rw [if_neg hiI, if_neg (fun hc => hiI ((hmem i).mp hc))]
        · intro i hi
          exact hinv.2.2.2.2.2.2.2 i ((hmem i).mp hi)
      · intro heq
        rw [hdc] at heq
        have := hinv.2.2.2.2.1
        omega
    · have hdc : dCount (I ++ [j]) (chunksOf4000 p).length =
          dCount I (chunksOf4000 p).length + 1 :=
        dCount_append_not_mem I j _ hj hjI
      constructor
      · intro hlt
        unfold VideoDecoder.add_chunk
        rw [hreset]
        have := store_chunk_new_incomplete p K t0 I s hinv hbytes hN j hj hjI
          (by omega)
        exact ⟨this.1, Or.inr this.2⟩
      · intro heq
        unfold VideoDecoder.add_chunk
        rw [hreset]
        exact store_chunk_new_complete p K t0 I s hinv hbytes hN j hj hjI
          (by omega)

/-- Feeding any chunk sequence that never carries the missing index `jm`
emits nothing and advances the invariant by the fed indices. -/
lemma feed_run (p : List Nat) (K t0 : Nat)
    (hp : p ≠ []) (hbytes : ∀ b ∈ p, b < 256)
    (hN : (chunksOf4000 p).length ≤ 65535) :
    ∀ (seqt : List (VideoChunk × Nat)) (I : List Nat) (s : VideoDecoder),
    StateOK p K t0 I s →
    (∀ e ∈ seqt, e.1 ∈ fragmentEncoded K p ∧ t0 ≤ e.2 ∧ e.2 ≤ t0 + 200) →
    (∃ jm, jm < (chunksOf4000 p).length ∧ jm ∉ I ∧
      ∀ e ∈ seqt, e.1.chunk_idx ≠ jm) →
    (feedAll s seqt).2 = [] ∧
    StateOK p K t0 (I ++ seqt.map fun e => e.1.chunk_idx)
      (feedAll s seqt).1 := by
  intro seqt
  induction seqt with
  | nil =>
    intro I s hok _ _
    refine ⟨rfl, ?_⟩
    simpa using hok
  | cons e rest ih =>
    intro I s hok hmem hmiss
    obtain ⟨c, t⟩ := e
    obtain ⟨hcf, hct0, hct1⟩ := hmem (c, t) (by simp)
    obtain ⟨i, hiN, rfl⟩ := (mem_fragment_iff_mk K p c).mp hcf
    have hcidx : (mkChunk K p i).chunk_idx = i :=
      mkChunk_chunk_idx K p i (by omega)
    obtain ⟨jm, hjmN, hjmI, hjmseq⟩ := hmiss
    have hjm_ne : jm ≠ i := by
      have := hjmseq (mkChunk K p i, t) (by simp)
      rw [hcidx] at this
      omega
    have hdc : dCount (I ++ [i]) (chunksOf4000 p).length <
        (chunksOf4000 p).length := by
      refine dCount_lt_of_missing _ _ jm hjmN ?_
      rw [List.mem_append, List.mem_singleton]
      rintro (h | h)
      · exact hjmI h
      · exact hjm_ne h
    have hstep := (addChunk_step p K t0 hp hbytes hN I s hok i hiN t
      hct0 hct1).1 hdc
    have hrest := ih (I ++ [i]) (s.add_chunk (mkChunk K p i) t).1 hstep.2
      (by
        intro e he
        exact hmem e (by simp [he]))
      (by
        refine ⟨jm, hjmN, ?_, ?_⟩
        · rw [List.mem_append, List.mem_singleton]
          rintro (h | h)
          · exact hjmI h
          · exact hjm_ne h
        · intro e he
          exact hjmseq e (by simp [he]))
    constructor
    · show ((s.add_chunk (mkChunk K p i) t).2.toList ++
        (feedAll (s.add_chunk (mkChunk K p i) t).1 rest).2) = []
      rw [hstep.1, hrest.1]
      rfl
    · show StateOK p K t0
        (I ++ ((mkChunk K p i, t) :: rest).map fun e => e.1.chunk_idx)
        (feedAll (s.add_chunk (mkChunk K p i) t).1 rest).1
      have hidxlist : (I ++ ((mkChunk K p i, t) :: rest).map fun e => e.1.chunk_idx) =
          ((I ++ [i]) ++ rest.map fun e => e.1.chunk_idx) := by
        rw [List.map_cons, hcidx, List.append_assoc]
        rfl
      rw [hidxlist]
      exact hrest.2

/-- Reassembly correctness: feeding the assembler, from fresh state, all
chunks of one frame in any order with duplicates, all inside the 200 ms
window, with the last distinct index arriving as the final chunk, emits
nothing before the final chunk and emits exactly `(p, K)` at it. -/
lemma reassembly_exact (p : List Nat) (K t0 : Nat)
    (hp : p ≠ []) (hbytes : ∀ b ∈ p, b < 256)
    (hN : (chunksOf4000 p).length ≤ 65535)
    (seqt : List (VideoChunk × Nat))
    (hmem : ∀ e ∈ seqt, e.1 ∈ fragmentEncoded K p)
    (htime : ∀ e ∈ seqt, t0 ≤ e.2 ∧ e.2 ≤ t0 + 200)
    (hcover : ∀ c ∈ fragmentEncoded K p, c ∈ seqt.map Prod.fst)
    (hmiss : ¬ ∀ c ∈ fragmentEncoded K p, c ∈ (seqt.map Prod.fst).dropLast) :
    (feedAll VideoDecoder.init seqt.dropLast).2 = [] ∧
    (feedAll VideoDecoder.init seqt).2 = [(p, K)] := by
  have hN1 : 1 ≤ (chunksOf4000 p).length := by
    cases p with
    | nil => exact absurd rfl hp
    | cons x xs =>
      rw [chunksOf4000_cons]
      simp
  have hne : seqt ≠ [] := by
    intro hcon
    subst hcon
    refine hmiss ?_
    intro c hc
    exact absurd (hcover c hc) (by simp)
  push_neg at hmiss
  obtain ⟨cm, hcmf, hcm_not⟩ := hmiss
  obtain ⟨jm, hjmN, rfl⟩ := (mem_fragment_iff_mk K p cm).mp hcmf
  obtain ⟨cl, tl, hgl⟩ : ∃ cl tl, seqt.getLast hne = (cl, tl) :=
    ⟨(seqt.getLast hne).1, (seqt.getLast hne).2, rfl⟩
  have hsplit : seqt.dropLast ++ [(cl, tl)] = seqt := by
    rw [← hgl]
    exact List.dropLast_concat_getLast hne
  have hdropmap : (seqt.map Prod.fst).dropLast = seqt.dropLast.map Prod.fst :=
    (List.map_dropLast Prod.fst seqt).symm
  rw [hdropmap] at hcm_not
  have hmiss_pre : ∀ e ∈ seqt.dropLast, e.1.chunk_idx ≠ jm := by
    intro e he hcon
    obtain ⟨i, hiN, hei⟩ := (mem_fragment_iff_mk K p e.1).mp
      (hmem e (List.mem_of_mem_dropLast he))
    have hidx_e : e.1.chunk_idx = i := by
      rw [hei]
      exact mkChunk_chunk_idx K p i (by omega)
    have hieq : i = jm := by omega
    refine hcm_not ?_
    rw [← hieq, ← hei]
    exact List.mem_map.mpr ⟨e, he, rfl⟩
  have hpre := feed_run p K t0 hp hbytes hN seqt.dropLast [] VideoDecoder.init
    (Or.inl ⟨rfl, rfl⟩)
    (by
      intro e he
      exact ⟨hmem e (List.mem_of_mem_dropLast he),
        (htime e (List.mem_of_mem_dropLast he)).1,
        (htime e (List.mem_of_mem_dropLast he)).2⟩)
    ⟨jm, hjmN, by simp, hmiss_pre⟩
  refine ⟨hpre.1, ?_⟩
  have hlast_mem : (cl, tl) ∈ seqt := by
    rw [← hsplit]
    exact List.mem_append.mpr (Or.inr (by simp))
  obtain ⟨jl, hjlN, hjl_eq⟩ := (mem_fragment_iff_mk K p cl).mp
    (hmem _ hlast_mem)
  subst hjl_eq
  have hall : ∀ i, i < (chunksOf4000 p).length →
      i ∈ (seqt.dropLast.map fun e => e.1.chunk_idx) ++ [jl] := by
    intro i hiN
    have hmki : mkChunk K p i ∈ fragmentEncoded K p :=
      (mem_fragment_iff_mk K p _).mpr ⟨i, hiN, rfl⟩
    obtain ⟨e, he, hefst⟩ := List.mem_map.mp (hcover _ hmki)
    have he2 : e ∈ seqt.dropLast ++ [(mkChunk K p jl, tl)] := by
      rw [hsplit]
      exact he
    rcases List.mem_append.mp he2 with hd | hl
    · refine List.mem_append.mpr (Or.inl ?_)
      refine List.mem_map.mpr ⟨e, hd, ?_⟩
      rw [hefst]
      exact mkChunk_chunk_idx K p i (by omega)
    · rcases List.mem_singleton.mp hl with rfl
      have : (mkChunk K p jl).chunk_idx = (mkChunk K p i).chunk_idx :=
        congrArg VideoChunk.chunk_idx hefst
      rw [mkChunk_chunk_idx K p jl (by omega),
        mkChunk_chunk_idx K p i (by omega)] at this
      refine List.mem_append.mpr (Or.inr ?_)
      rw [List.mem_singleton]
      omega
  have hdcN : dCount ((seqt.dropLast.map fun e => e.1.chunk_idx) ++ [jl])
      (chunksOf4000 p).length = (chunksOf4000 p).length :=
    (dCount_eq_iff_all _ _).mpr hall
  have hpreOK : StateOK p K t0 (seqt.dropLast.map fun e => e.1.chunk_idx)
      (feedAll VideoDecoder.init seqt.dropLast).1 := by
    have := hpre.2
    simpa using this
  have hstep := (addChunk_step p K t0 hp hbytes hN
    (seqt.dropLast.map fun e => e.1.chunk_idx)
    (feedAll VideoDecoder.init seqt.dropLast).1 hpreOK jl hjlN tl
    (htime _ hlast_mem).1 (htime _ hlast_mem).2).2 hdcN
  rw [← hsplit, feedAll_append, hpre.1]
  show [] ++
    ((feedAll VideoDecoder.init seqt.dropLast).1.add_chunk
      (mkChunk K p jl) tl).2.toList ++
    (feedAll ((feedAll VideoDecoder.init seqt.dropLast).1.add_chunk
      (mkChunk K p jl) tl).1 []).2 = [(p, K)]
  rw [hstep]
  rfl

/-- C1 (amended): for every payload `p` (length at least 1, chunk count
fitting in `u16`) split by the sender into the chunks of frame id `K`, if
the assembler is fed exactly those chunks in any order, duplicates allowed,
with every arrival inside the 200 ms window, and no chunk arrives after the
one that supplies the last missing index, then nothing is emitted before
that final chunk and exactly one payload is emitted at it, equal to `p` and
attributed to frame `K`.  (Unrestricted trailing duplicates can restart the
assembly after completion and re-emit, see the counterexample.) -/
theorem C1_reassembly_exactly_once (p : List Nat) (K t0 : Nat)
    (hp : p ≠ []) (hbytes : ∀ b ∈ p, b < 256)
    (hN : (chunksOf4000 p).length ≤ 65535)
    (seqt : List (VideoChunk × Nat))
    (hfrom : ∀ e ∈ seqt, e.1 ∈ fragmentEncoded K p)
    (htime : ∀ e ∈ seqt, t0 ≤ e.2 ∧ e.2 ≤ t0 + 200)
    (hcover : ∀ c ∈ fragmentEncoded K p, c ∈ seqt.map Prod.fst)
    (hfinal : ¬ ∀ c ∈ fragmentEncoded K p, c ∈ (seqt.map Prod.fst).dropLast) :
    (feedAll VideoDecoder.init seqt.dropLast).2 = [] ∧
    (feedAll VideoDecoder.init seqt).2 = [(p, K)] :=
  reassembly_exact p K t0 hp hbytes hN seqt hfrom htime hcover hfinal

theorem C1_reassembly_exactly_once_witness :
    ([9] ≠ ([] : List Nat)) ∧
    (feedAll VideoDecoder.init
      ((fragmentEncoded 7 [9]).map fun c => (c, 5))).2 = [([9], 7)] := by
  refine ⟨by decide, ?_⟩
  exact (C1_reassembly_exactly_once [9] 7 5 (by decide) (by decide)
    (by decide) ((fragmentEncoded 7 [9]).map fun c => (c, 5))
    (by decide) (by decide) (by decide) (by decide)).2

/-- C1 counterexample: the single chunk of the one-chunk payload `[7]`
(frame id 5) delivered twice — a delivery of exactly the sender's chunks,
in order, with one duplicate, both inside the window — makes `add_chunk`
emit the assembled payload twice: after the first completion the assembly
state is cleared (`total_chunks = 0`), so the duplicate restarts assembly
and completes it again. -/
theorem C1_counterexample :
    (∀ c ∈ fragmentEncoded 5 [7] ++ fragmentEncoded 5 [7],
      c ∈ fragmentEncoded 5 [7]) ∧
    (∀ c ∈ fragmentEncoded 5 [7],
      c ∈ fragmentEncoded 5 [7] ++ fragmentEncoded 5 [7]) ∧
    (feedAll VideoDecoder.init
      ((fragmentEncoded 5 [7] ++ fragmentEncoded 5 [7]).map
        fun c => (c, 0))).2 = [([7], 5), ([7], 5)] := by
  refine ⟨by decide, by decide, by decide⟩

/-- The default chunk used with `List.getD` in concrete statements. -/
def dfltChunk : VideoChunk := VideoChunk.new 0 0 0 false []

lemma fragmentEncoded_getD (K : Nat) (p : List Nat) (i : Nat)
    (hi : i < (fragmentEncoded K p).length) :
    (fragmentEncoded K p).getD i dfltChunk = mkChunk K p i := by
  rw [List.getD_eq_getElem _ _ hi]
  exact fragmentEncoded_getElem K p i hi

/-- C8: splitting any 9000-byte encoded frame with id 42 under the
4000-byte bound yields exactly 3 chunks of payload sizes 4000, 4000 and
1000 bytes, each tagged `total_chunks = 3`, and feeding the receiver those
chunks in index order `[1, 0, 2]` emits exactly one payload, equal to the
original 9000 bytes and attributed to frame 42. -/
theorem C8_fragmented_frame_scenario (p : List Nat) (t0 : Nat)
    (hlen : p.length = 9000) (hbytes : ∀ b ∈ p, b < 256) :
    (fragmentEncoded 42 p).length = 3 ∧
    (((fragmentEncoded 42 p).getD 0 dfltChunk).decode_data.getD []).length = 4000 ∧
    (((fragmentEncoded 42 p).getD 1 dfltChunk).decode_data.getD []).length = 4000 ∧
    (((fragmentEncoded 42 p).getD 2 dfltChunk).decode_data.getD []).length = 1000 ∧
    (∀ i, i < 3 → ((fragmentEncoded 42 p).getD i dfltChunk).total_chunks = 3 ∧
      ((fragmentEncoded 42 p).getD i dfltChunk).chunk_idx = i ∧
      ((fragmentEncoded 42 p).getD i dfltChunk).frame_id = 42) ∧
    (feedAll VideoDecoder.init
      [((fragmentEncoded 42 p).getD 1 dfltChunk, t0),
       ((fragmentEncoded 42 p).getD 0 dfltChunk, t0),
       ((fragmentEncoded 42 p).getD 2 dfltChunk, t0)]).2 = [(p, 42)] := by
  have hparts : (chunksOf4000 p).length = 3 := by
    rw [chunksOf4000_length, hlen]
  have hN : (chunksOf4000 p).length ≤ 65535 := by omega
  have hlen3 : (fragmentEncoded 42 p).length = 3 := by
    rw [fragmentEncoded_length, hparts]
  have hgetD : ∀ i, i < 3 →
      (fragmentEncoded 42 p).getD i dfltChunk = mkChunk 42 p i := by
    intro i hi
    exact fragmentEncoded_getD 42 p i (by omega)
  have hdecode : ∀ i, i < 3 →
      ((fragmentEncoded 42 p).getD i dfltChunk).decode_data.getD [] =
        (chunksOf4000 p).getD i [] := by
    intro i hi
    rw [hgetD i hi, mkChunk_decode 42 p i hbytes (by omega)]
    rfl
  have hplen : ∀ i, i < 3 →
      ((chunksOf4000 p).getD i []).length = min 4000 (9000 - 4000 * i) := by
    intro i hi
    rw [chunksOf4000_getD_length p i (by omega), hlen]
  refine ⟨hlen3, ?_, ?_, ?_, ?_, ?_⟩
  · rw [hdecode 0 (by omega), hplen 0 (by omega)]
    omega
  · rw [hdecode 1 (by omega), hplen 1 (by omega)]
    omega
  · rw [hdecode 2 (by omega), hplen 2 (by omega)]
    omega
  · intro i hi
    rw [hgetD i hi]
    refine ⟨?_, ?_, rfl⟩
    · rw [mkChunk_total 42 p i hN, hparts]
    · exact mkChunk_chunk_idx 42 p i (by omega)
  · rw [hgetD 1 (by omega), hgetD 0 (by omega), hgetD 2 (by omega)]
    have hmk_ne : ∀ i j : Nat, i < 3 → j < 3 → i ≠ j →
        mkChunk 42 p i ≠ mkChunk 42 p j := by
      intro i j hi hj hne hcon
      have := congrArg VideoChunk.chunk_idx hcon
      rw [mkChunk_chunk_idx 42 p i (by omega),
        mkChunk_chunk_idx 42 p j (by omega)] at this
      exact hne this
    have hmain := reassembly_exact p 42 t0
      (by intro hcon; rw [hcon] at hlen; simp at hlen) hbytes hN
      [(mkChunk 42 p 1, t0), (mkChunk 42 p 0, t0), (mkChunk 42 p 2, t0)]
      (by
        intro e he
        simp only [List.mem_cons, List.not_mem_nil, or_false] at he
        rcases he with he | he | he
        · subst he
          exact (mem_fragment_iff_mk 42 p _).mpr ⟨1, by omega, rfl⟩
        · subst he
          exact (mem_fragment_iff_mk 42 p _).mpr ⟨0, by omega, rfl⟩
        · subst he
          exact (mem_fragment_iff_mk 42 p _).mpr ⟨2, by omega, rfl⟩)
      (by
        intro e he
        simp only [List.mem_cons, List.not_mem_nil, or_false] at he
        rcases he with he | he | he <;> subst he <;>
          exact ⟨le_refl _, by omega⟩)
      (by
        intro c hc
        obtain ⟨i, hiN, rfl⟩ := (mem_fragment_iff_mk 42 p c).mp hc
        rw [hparts] at hiN
        interval_cases i <;> simp)
      (by
        intro hcon
        have h2 := hcon (mkChunk 42 p 2)
          ((mem_fragment_iff_mk 42 p _).mpr ⟨2, by omega, rfl⟩)
        simp only [List.map_cons, List.map_nil, List.dropLast_cons₂,
          List.dropLast_single, List.mem_cons, List.not_mem_nil] at h2
        rcases h2 with h2 | h2 | h2
        · exact hmk_ne 2 1 (by omega) (by omega) (by omega) h2
        · exact hmk_ne 2 0 (by omega) (by omega) (by omega) h2
        · exact h2)
    exact hmain.2

theorem C8_fragmented_frame_scenario_witness :
    (List.replicate 9000 7).length = 9000 ∧
    (fragmentEncoded 42 (List.replicate 9000 7)).length = 3 ∧
    (feedAll VideoDecoder.init
      [((fragmentEncoded 42 (List.replicate 9000 7)).getD 1 dfltChunk, 0),
       ((fragmentEncoded 42 (List.replicate 9000 7)).getD 0 dfltChunk, 0),
       ((fragmentEncoded 42 (List.replicate 9000 7)).getD 2 dfltChunk, 0)]).2 =
      [(List.replicate 9000 7, 42)] := by
  have h := C8_fragmented_frame_scenario (List.replicate 9000 7) 0
    (by rw [List.length_replicate])
    (by
      intro b hb
      rw [List.eq_of_mem_replicate hb]
      decide)
  exact ⟨by rw [List.length_replicate], h.1, h.2.2.2.2.2⟩

/-! ### Host session manager (`src/network/server.rs`)

`GameServer` without the socket: `HashMap`s become association lists with
unique keys (the `Nodup` hypotheses of the theorems), `SocketAddr`s are
opaque `Nat`s, `Instant`s are `Nat` milliseconds.  Sends are modelled as
returned events: `remove_client` returns the `PlayerLeft` broadcast as the
pair (left player id, recipient addresses). -/

/-- `protocol.rs` `PlayerState`; the `f32` fields are modelled as exact
rationals. -/
structure PlayerState where
  id : Nat
  position : Rat × Rat × Rat
  yaw : Rat
  pitch : Rat
deriving DecidableEq

/-- The exact value of the `f32` constant `std::f32::consts::PI`
(`0x40490FDB`, i.e. `13176795 * 2 ^ -22`). -/
def pi_f32 : Rat := 13176795 / 4194304

/-- The spawn state `[0.0, 1.8, 4.0]`, yaw `PI`, pitch `0` inserted for a
new player (the decimal `1.8` stands for its `f32` rounding). -/
def spawnState (pid : Nat) : PlayerState :=
  ⟨pid, (0, 18 / 10, 4), pi_f32, 0⟩

/-- `GameServer` state (socket omitted). -/
structure GameServer where
  clients : List (Nat × Nat)
  client_last_activity : List (Nat × Nat)
  player_states : List (Nat × PlayerState)
  next_player_id : Nat
deriving DecidableEq

/-- `HashMap::get`. -/
def lookupA {β : Type} (l : List (Nat × β)) (k : Nat) : Option β :=
  (l.find? fun e => e.1 == k).map Prod.snd

/-- `HashMap::insert` (replaces any entry with the same key). -/
def insertA {β : Type} (l : List (Nat × β)) (k : Nat) (v : β) :
    List (Nat × β) :=
  (k, v) :: l.filter fun e => e.1 != k

/-- `HashMap::remove` (keys are unique, so filtering is removal). -/
def removeA {β : Type} (l : List (Nat × β)) (k : Nat) : List (Nat × β) :=
  l.filter fun e => e.1 != k

/-- Iterated removal. -/
def removeManyA {β : Type} (l : List (Nat × β)) : List Nat → List (Nat × β)
  | [] => l
  | a :: rest => removeManyA (removeA l a) rest

/-- The server state `setup_server` builds: no clients, the host (player 0)
already present, ids start at 1. -/
def serverInit : GameServer :=
  ⟨[], [], [(0, spawnState 0)], 1⟩

/-- `remove_client`: drop the registry entry, the activity record and the
player state, and broadcast `PlayerLeft` to the remaining clients. -/
def remove_client (s : GameServer) (addr : Nat) :
    GameServer × Option (Nat × List Nat) :=
  match lookupA s.clients addr with
  | none => (s, none)
  | some player_id =>
    let clients := removeA s.clients addr
    ({ clients := clients,
       client_last_activity := removeA s.client_last_activity addr,
       player_states := removeA s.player_states player_id,
       next_player_id := s.next_player_id },
     some (player_id, clients.map Prod.fst))

/-- The removal loop of `check_client_timeouts`. -/
def removeAllClients (s : GameServer) :
    List Nat → GameServer × List (Nat × List Nat)
  | [] => (s, [])
  | a :: rest =>
    let r := remove_client s a
    let r2 := removeAllClients r.1 rest
    (r2.1, r.2.toList ++ r2.2)

/-- The addresses whose last activity is more than `CLIENT_TIMEOUT_SECS`
(5 s = 5000 ms) old. -/
def timedOutAddrs (s : GameServer) (now : Nat) : List Nat :=
  (s.client_last_activity.filter fun e => decide (5000 < now - e.2)).map
    Prod.fst

/-- `check_client_timeouts` at time `now`. -/
def check_client_timeouts (s : GameServer) (now : Nat) :
    GameServer × List (Nat × List Nat) :=
  removeAllClients s (timedOutAddrs s now)

/-- The `Join` arm of `receive_client_messages`: a new sender gets the next
id, registry/activity/state entries and a `Welcome`; a registered sender is
ignored. -/
def handle_join (s : GameServer) (src now : Nat) :
    GameServer × Option (Nat × Nat) :=
  if (lookupA s.clients src).isSome then (s, none)
  else
    let player_id := s.next_player_id
    ({ clients := insertA s.clients src player_id,
       client_last_activity := insertA s.client_last_activity src now,
       player_states := insertA s.player_states player_id
         (spawnState player_id),
       next_player_id := player_id + 1 },
     some (src, player_id))

/-! Association-list lemmas. -/

lemma lookupA_eq_none {β : Type} (l : List (Nat × β)) (k : Nat) :
    lookupA l k = none ↔ ∀ v, (k, v) ∉ l := by
  unfold lookupA
  constructor
  · intro h v hv
    rw [Option.map_eq_none'] at h
    have := List.find?_eq_none.mp h (k, v) hv
    simp at this
  · intro h
    rw [Option.map_eq_none', List.find?_eq_none]
    intro e he hcon
    simp only [beq_iff_eq] at hcon
    refine h e.2 ?_
    rw [← hcon]
    exact he

lemma mem_of_lookupA {β : Type} (l : List (Nat × β)) (k : Nat) (v : β)
    (h : lookupA l k = some v) : (k, v) ∈ l := by
  unfold lookupA at h
  rw [Option.map_eq_some'] at h
  obtain ⟨e, he, hev⟩ := h
  have hk := List.find?_some he
  simp only [beq_iff_eq] at hk
  have := List.mem_of_find?_eq_some he
  rw [show e = (k, v) by
    cases e
    simp only at hk hev
    rw [hk, hev]] at this
  exact this

lemma lookupA_of_mem_nodup {β : Type} (l : List (Nat × β)) (k : Nat) (v : β)
    (hnd : (l.map Prod.fst).Nodup) (hmem : (k, v) ∈ l) :
    lookupA l k = some v := by
  induction l with
  | nil => simp at hmem
  | cons e rest ih =>
    rcases List.mem_cons.mp hmem with rfl | hmem2
    · unfold lookupA
      rw [List.find?_cons_of_pos _ (by simp)]
      rfl
    · have hke : e.1 ≠ k := by
        intro hcon
        have : k ∈ rest.map Prod.fst := List.mem_map.mpr ⟨(k, v), hmem2, rfl⟩
        rw [List.map_cons, List.nodup_cons, hcon] at hnd
        exact hnd.1 this
      unfold lookupA
      rw [List.find?_cons_of_neg _ (by simpa using hke)]
      exact ih (by
        rw [List.map_cons, List.nodup_cons] at hnd
        exact hnd.2) hmem2

lemma mem_removeA {β : Type} (l : List (Nat × β)) (k : Nat) (e : Nat × β) :
    e ∈ removeA l k ↔ e ∈ l ∧ e.1 ≠ k := by
  unfold removeA
  rw [List.mem_filter]
  simp [bne_iff_ne]

lemma lookupA_removeA_self {β : Type} (l : List (Nat × β)) (k : Nat) :
    lookupA (removeA l k) k = none := by
  rw [lookupA_eq_none]
  intro v hv
  have := (mem_removeA l k (k, v)).mp hv
  exact this.2 rfl

lemma lookupA_removeA_ne {β : Type} (l : List (Nat × β)) (k k2 : Nat)
    (h : k2 ≠ k) : lookupA (removeA l k) k2 = lookupA l k2 := by
  unfold lookupA removeA
  induction l with
  | nil => rfl
  | cons e rest ih =>
    by_cases hek : e.1 = k
    · rw [List.filter_cons_of_neg (by simpa using hek)]
      rw [List.find?_cons_of_neg _ (by
        simp only [beq_iff_eq]
        rw [hek]
        exact fun hc => h hc.symm)]
      exact ih
    · rw [List.filter_cons_of_pos (by simpa using hek)]
      by_cases hek2 : e.1 = k2
      · rw [List.find?_cons_of_pos _ (by simpa using hek2),
          List.find?_cons_of_pos _ (by simpa using hek2)]
      · rw [List.find?_cons_of_neg _ (by simpa using hek2),
          List.find?_cons_of_neg _ (by simpa using hek2)]
        exact ih

lemma removeA_of_lookupA_none {β : Type} (l : List (Nat × β)) (k : Nat)
    (h : lookupA l k = none) : removeA l k = l := by
  unfold removeA
  rw [List.filter_eq_self]
  intro e he
  have := (lookupA_eq_none l k).mp h e.2
  simp only [bne_iff_ne, ne_eq]
  intro hcon
  refine this ?_
  rw [← hcon]
  exact he

lemma removeA_sublist {β : Type} (l : List (Nat × β)) (k : Nat) :
    List.Sublist (removeA l k) l := List.filter_sublist l

lemma removeManyA_sublist {β : Type} (l : List (Nat × β)) :
    ∀ xs : List Nat, List.Sublist (removeManyA l xs) l := by
  suffices h : ∀ (xs : List Nat) (l : List (Nat × β)),
      List.Sublist (removeManyA l xs) l from fun xs => h xs l
  intro xs
  induction xs with
  | nil =>
    intro l
    exact List.Sublist.refl l
  | cons a rest ih =>
    intro l
    exact List.Sublist.trans (ih (removeA l a)) (removeA_sublist l a)

lemma mem_removeManyA {β : Type} (e : Nat × β) :
    ∀ (xs : List Nat) (l : List (Nat × β)),
    e ∈ l → e.1 ∉ xs → e ∈ removeManyA l xs := by
  intro xs
  induction xs with
  | nil =>
    intro l he _
    exact he
  | cons a rest ih =>
    intro l he hnx
    refine ih (removeA l a) ?_ (fun hc => hnx (by simp [hc]))
    rw [mem_removeA]
    exact ⟨he, fun hc => hnx (by simp [hc])⟩

lemma not_mem_removeManyA {β : Type} (k : Nat) (v : β) :
    ∀ (xs : List Nat) (l : List (Nat × β)),
    k ∈ xs → (k, v) ∉ removeManyA l xs := by
  intro xs
  induction xs with
  | nil =>
    intro l h
    simp at h
  | cons a rest ih =>
    intro l hk hcon
    rcases List.mem_cons.mp hk with rfl | hk2
    · have hsub := removeManyA_sublist (removeA l k) rest
      have := List.Sublist.mem hcon hsub
      rw [mem_removeA] at this
      exact this.2 rfl
    · exact ih (removeA l a) hk2 hcon

lemma snd_unique_of_nodup {β : Type} [DecidableEq β]
    (l : List (Nat × β)) (hnd : (l.map Prod.snd).Nodup)
    (k1 k2 : Nat) (v : β) (h1 : (k1, v) ∈ l) (h2 : (k2, v) ∈ l) :
    k1 = k2 := by
  induction l with
  | nil => simp at h1
  | cons e rest ih =>
    rw [List.map_cons, List.nodup_cons] at hnd
    rcases List.mem_cons.mp h1 with rfl | h1r
    · rcases List.mem_cons.mp h2 with he2 | h2r
      · exact (congrArg Prod.fst he2.symm)
      · exact absurd (List.mem_map.mpr ⟨(k2, v), h2r, rfl⟩) hnd.1
    · rcases List.mem_cons.mp h2 with rfl | h2r
      · exact absurd (List.mem_map.mpr ⟨(k1, v), h1r, rfl⟩) hnd.1
      · exact ih hnd.2 h1r h2r

lemma fst_unique_of_nodup {β : Type} (l : List (Nat × β))
    (hnd : (l.map Prod.fst).Nodup)
    (k : Nat) (v1 v2 : β) (h1 : (k, v1) ∈ l) (h2 : (k, v2) ∈ l) :
    v1 = v2 := by
  induction l with
  | nil => simp at h1
  | cons e rest ih =>
    rw [List.map_cons, List.nodup_cons] at hnd
    rcases List.mem_cons.mp h1 with rfl | h1r
    · rcases List.mem_cons.mp h2 with he2 | h2r
      · exact (congrArg Prod.snd he2.symm)
      · exact absurd (List.mem_map.mpr ⟨(k, v2), h2r, rfl⟩) hnd.1
    · rcases List.mem_cons.mp h2 with rfl | h2r
      · exact absurd (List.mem_map.mpr ⟨(k, v1), h1r, rfl⟩) hnd.1
      · exact ih hnd.2 h1r h2r

lemma remove_client_none (s : GameServer) (a : Nat)
    (h : lookupA s.clients a = none) : remove_client s a = (s, none) := by
  unfold remove_client
  rw [h]

lemma remove_client_some (s : GameServer) (a pid : Nat)
    (h : lookupA s.clients a = some pid) :
    remove_client s a =
      (⟨removeA s.clients a, removeA s.client_last_activity a,
        removeA s.player_states pid, s.next_player_id⟩,
       some (pid, (removeA s.clients a).map Prod.fst)) := by
  unfold remove_client
  rw [h]

/-- The three maps only shrink under `remove_client`. -/
lemma remove_client_sublist (s : GameServer) (a : Nat) :
    List.Sublist (remove_client s a).1.clients s.clients ∧
    List.Sublist (remove_client s a).1.client_last_activity
      s.client_last_activity ∧
    List.Sublist (remove_client s a).1.player_states s.player_states := by
  cases h : lookupA s.clients a with
  | none =>
    rw [remove_client_none s a h]
    exact ⟨List.Sublist.refl _, List.Sublist.refl _, List.Sublist.refl _⟩
  | some pid =>
    rw [remove_client_some s a pid h]
    exact ⟨removeA_sublist _ _, removeA_sublist _ _, removeA_sublist _ _⟩

lemma removeAllClients_sublist (addrs : List Nat) :
    ∀ s : GameServer,
    List.Sublist (removeAllClients s addrs).1.clients s.clients ∧
    List.Sublist (removeAllClients s addrs).1.client_last_activity
      s.client_last_activity ∧
    List.Sublist (removeAllClients s addrs).1.player_states
      s.player_states := by
  induction addrs with
  | nil =>
    intro s
    exact ⟨List.Sublist.refl _, List.Sublist.refl _, List.Sublist.refl _⟩
  | cons a rest ih =>
    intro s
    have h1 := remove_client_sublist s a
    have h2 := ih (remove_client s a).1
    exact ⟨List.Sublist.trans h2.1 h1.1, List.Sublist.trans h2.2.1 h1.2.1,
      List.Sublist.trans h2.2.2 h1.2.2⟩

/-- `clients` after the sweep is exactly the iterated removal. -/
lemma removeAllClients_clients (addrs : List Nat) :
    ∀ s : GameServer,
    (removeAllClients s addrs).1.clients = removeManyA s.clients addrs := by
  induction addrs with
  | nil =>
    intro s
    rfl
  | cons a rest ih =>
    intro s
    show (removeAllClients (remove_client s a).1 rest).1.clients = _
    rw [ih (remove_client s a).1]
    cases h : lookupA s.clients a with
    | none =>
      rw [remove_client_none s a h]
      show removeManyA s.clients rest = removeManyA (removeA s.clients a) rest
      rw [removeA_of_lookupA_none s.clients a h]
    | some pid =>
      rw [remove_client_some s a pid h]
      rfl

/-- Every `PlayerLeft` event id of a sweep is a registered player id. -/
lemma removeAllClients_event_ids (addrs : List Nat) :
    ∀ (s : GameServer) (ev : Nat × List Nat),
    ev ∈ (removeAllClients s addrs).2 → ev.1 ∈ s.clients.map Prod.snd := by
  induction addrs with
  | nil =>
    intro s ev hev
    simp [removeAllClients] at hev
  | cons a rest ih =>
    intro s ev hev
    show _
    rcases List.mem_append.mp (by
      show ev ∈ (remove_client s a).2.toList ++
        (removeAllClients (remove_client s a).1 rest).2
      exact hev) with h | h
    · cases hl : lookupA s.clients a with
      | none =>
        rw [remove_client_none s a hl] at h
        simp at h
      | some pid =>
        rw [remove_client_some s a pid hl] at h
        simp only [Option.toList_some, List.mem_singleton] at h
        rw [h]
        exact List.mem_map.mpr ⟨(a, pid), mem_of_lookupA _ _ _ hl, rfl⟩
    · have := ih (remove_client s a).1 ev h
      exact List.Sublist.mem this
        (List.Sublist.map Prod.snd (remove_client_sublist s a).1)

lemma lookupA_none_of_sublist {β : Type} (l1 l2 : List (Nat × β)) (k : Nat)
    (hsub : List.Sublist l1 l2) (h : lookupA l2 k = none) :
    lookupA l1 k = none := by
  rw [lookupA_eq_none] at h ⊢
  intro v hv
  exact h v (List.Sublist.mem hv hsub)

/-- Core sweep lemma: if `a` (registered as `pid`) occurs in the processed
address list, the sweep removes its three entries, fires exactly one
`PlayerLeft pid`, and that event's recipients are the registry keys right
after `a`'s removal. -/
lemma sweep_removes_stale (l1 : List Nat) :
    ∀ (s : GameServer) (a pid : Nat) (l2 : List Nat),
    a ∉ l1 →
    lookupA s.clients a = some pid →
    (s.clients.map Prod.fst).Nodup →
    (s.clients.map Prod.snd).Nodup →
    lookupA (removeAllClients s (l1 ++ a :: l2)).1.clients a = none ∧
    lookupA (removeAllClients s (l1 ++ a :: l2)).1.client_last_activity a =
      none ∧
    lookupA (removeAllClients s (l1 ++ a :: l2)).1.player_states pid = none ∧
    ((removeAllClients s (l1 ++ a :: l2)).2.map Prod.fst).count pid = 1 ∧
    (∀ ev ∈ (removeAllClients s (l1 ++ a :: l2)).2, ev.1 = pid →
      ev.2 = (removeA (removeManyA s.clients l1) a).map Prod.fst) ∧
    (pid, (removeA (removeManyA s.clients l1) a).map Prod.fst) ∈
      (removeAllClients s (l1 ++ a :: l2)).2 := by
  induction l1 with
  | nil =>
    intro s a pid l2 _ hreg hck hcv
    have hstep := remove_client_some s a pid hreg
    have hmema : (a, pid) ∈ s.clients := mem_of_lookupA _ _ _ hreg
    have hpid_gone : ∀ k, (k, pid) ∉ removeA s.clients a := by
      intro k hk
      have hm := (mem_removeA _ _ _).mp hk
      exact hm.2 (snd_unique_of_nodup s.clients hcv k a pid hm.1 hmema)
    have hzero : ((removeAllClients
        ⟨removeA s.clients a, removeA s.client_last_activity a,
         removeA s.player_states pid, s.next_player_id⟩ l2).2.map
          Prod.fst).count pid = 0 := by
      rw [List.count_eq_zero]
      intro hcon
      obtain ⟨ev, hev, hevid⟩ := List.mem_map.mp hcon
      have := removeAllClients_event_ids l2 _ ev hev
      rw [hevid] at this
      obtain ⟨e, he, hei⟩ := List.mem_map.mp this
      refine hpid_gone e.1 ?_
      rw [show e = (e.1, pid) by
        cases e
        simp only at hei ⊢
        rw [hei]] at he
      exact he
    have hsub := removeAllClients_sublist l2
      ⟨removeA s.clients a, removeA s.client_last_activity a,
       removeA s.player_states pid, s.next_player_id⟩
    simp only [List.nil_append, removeAllClients, hstep, Option.toList,
      List.singleton_append]
    refine ⟨?_, ?_, ?_, ?_, ?_, ?_⟩
    · exact lookupA_none_of_sublist _ _ a hsub.1 (lookupA_removeA_self _ a)
    · exact lookupA_none_of_sublist _ _ a hsub.2.1
        (lookupA_removeA_self _ a)
    · exact lookupA_none_of_sublist _ _ pid hsub.2.2
        (lookupA_removeA_self _ pid)
    · rw [List.map_cons, List.count_cons_self, hzero]
    · intro ev hev hevid
      rcases List.mem_cons.mp hev with rfl | hevr
      · rfl
      · exfalso
        have := removeAllClients_event_ids l2 _ ev hevr
        rw [hevid] at this
        obtain ⟨e, he, hei⟩ := List.mem_map.mp this
        refine hpid_gone e.1 ?_
        rw [show e = (e.1, pid) by
          cases e
          simp only at hei ⊢
          rw [hei]] at he
        exact he
    · exact List.mem_cons.mpr (Or.inl rfl)
  | cons b l1' ih =>
    intro s a pid l2 hal1 hreg hck hcv
    have hab : a ≠ b := by
      intro hcon
      exact hal1 (by rw [hcon]; simp)
    have hal1' : a ∉ l1' := fun hc => hal1 (by simp [hc])
    have hmany : removeManyA s.clients (b :: l1') =
        removeManyA (removeA s.clients b) l1' := rfl
    cases hlb : lookupA s.clients b with
    | none =>
      have hstep := remove_client_none s b hlb
      have hmain := ih s a pid l2 hal1' hreg hck hcv
      have hrw : removeManyA s.clients (b :: l1') =
          removeManyA s.clients l1' := by
        rw [hmany, removeA_of_lookupA_none s.clients b hlb]
      simp only [List.cons_append, removeAllClients, hstep, Option.toList,
        List.nil_append]
      rw [hrw]
      exact hmain
    | some q =>
      have hstep := remove_client_some s b q hlb
      have hmemb : (b, q) ∈ s.clients := mem_of_lookupA _ _ _ hlb
      have hmema : (a, pid) ∈ s.clients := mem_of_lookupA _ _ _ hreg
      have hqpid : q ≠ pid := by
        intro hcon
        subst hcon
        exact hab (snd_unique_of_nodup s.clients hcv a b q hmema hmemb)
      have hck1 : ((removeA s.clients b).map Prod.fst).Nodup :=
        List.Sublist.nodup (List.Sublist.map Prod.fst (removeA_sublist _ _))
          hck
      have hcv1 : ((removeA s.clients b).map Prod.snd).Nodup :=
        List.Sublist.nodup (List.Sublist.map Prod.snd (removeA_sublist _ _))
          hcv
      have hreg1 : lookupA (removeA s.clients b) a = some pid := by
        rw [lookupA_removeA_ne _ _ _ hab]
        exact hreg
      have hmain := ih
        ⟨removeA s.clients b, removeA s.client_last_activity b,
         removeA s.player_states q, s.next_player_id⟩
        a pid l2 hal1' hreg1 hck1 hcv1
      simp only [List.cons_append, removeAllClients, hstep, Option.toList,
        List.singleton_append]
      rw [hmany]
      refine ⟨hmain.1, hmain.2.1, hmain.2.2.1, ?_, ?_, ?_⟩
      · rw [List.map_cons, List.count_cons_of_ne (fun hc => hqpid hc.symm)]
        exact hmain.2.2.2.1
      · intro ev hev hevid
        rcases List.mem_cons.mp hev with rfl | hevr
        · exact absurd hevid hqpid
        · exact hmain.2.2.2.2.1 ev hevr hevid
      · exact List.mem_cons.mpr (Or.inr hmain.2.2.2.2.2)

/-- C5: a registered client whose last activity is more than 5 s old at a
timeout sweep loses its registry entry, its activity record and its
`PlayerState`; a `PlayerLeft` with its id is emitted exactly once, its
recipients are registered clients other than the evicted one and include
every client that was not itself timed out; a second sweep emits no second
`PlayerLeft` for that id. -/
theorem C5_timeout_eviction (s : GameServer) (now addr pid t : Nat)
    (hck : (s.clients.map Prod.fst).Nodup)
    (hcv : (s.clients.map Prod.snd).Nodup)
    (hak : (s.client_last_activity.map Prod.fst).Nodup)
    (hreg : lookupA s.clients addr = some pid)
    (hact : lookupA s.client_last_activity addr = some t)
    (hstale : 5000 < now - t) :
    lookupA (check_client_timeouts s now).1.clients addr = none ∧
    lookupA (check_client_timeouts s now).1.client_last_activity addr =
      none ∧
    lookupA (check_client_timeouts s now).1.player_states pid = none ∧
    ((check_client_timeouts s now).2.map Prod.fst).count pid = 1 ∧
    (∀ ev ∈ (check_client_timeouts s now).2, ev.1 = pid →
      addr ∉ ev.2 ∧
      (∀ a2 ∈ ev.2, ∃ q, lookupA s.clients a2 = some q) ∧
      (∀ a2 q u, lookupA s.clients a2 = some q →
        lookupA s.client_last_activity a2 = some u →
        ¬ 5000 < now - u → a2 ∈ ev.2)) ∧
    ((check_client_timeouts (check_client_timeouts s now).1 now).2.map
      Prod.fst).count pid = 0 := by
  have hmemact : (addr, t) ∈ s.client_last_activity :=
    mem_of_lookupA _ _ _ hact
  have hmemreg : (addr, pid) ∈ s.clients := mem_of_lookupA _ _ _ hreg
  have haddr_to : addr ∈ timedOutAddrs s now := by
    unfold timedOutAddrs
    exact List.mem_map.mpr ⟨(addr, t),
      List.mem_filter.mpr ⟨hmemact, by simpa using hstale⟩, rfl⟩
  have hto_nodup : (timedOutAddrs s now).Nodup :=
    List.Sublist.nodup
      (List.Sublist.map Prod.fst (List.filter_sublist _)) hak
  obtain ⟨l1, l2, hsplit⟩ := List.mem_iff_append.mp haddr_to
  have hnl1 : addr ∉ l1 := by
    rw [hsplit, List.nodup_append] at hto_nodup
    intro hcon
    exact hto_nodup.2.2 hcon (by simp)
  have hstale_of_to : ∀ a2 ∈ timedOutAddrs s now,
      ∃ u2, (a2, u2) ∈ s.client_last_activity ∧ 5000 < now - u2 := by
    intro a2 ha2
    unfold timedOutAddrs at ha2
    obtain ⟨⟨a3, u2⟩, he, hef⟩ := List.mem_map.mp ha2
    simp only at hef
    subst hef
    have := List.mem_filter.mp he
    exact ⟨u2, this.1, by simpa using this.2⟩
  have hmain := sweep_removes_stale l1 s addr pid l2 hnl1 hreg hck hcv
  unfold check_client_timeouts
  rw [hsplit]
  refine ⟨hmain.1, hmain.2.1, hmain.2.2.1, hmain.2.2.2.1, ?_, ?_⟩
  · intro ev hev hevid
    have hrec := hmain.2.2.2.2.1 ev hev hevid
    rw [hrec]
    refine ⟨?_, ?_, ?_⟩
    · intro hcon
      obtain ⟨⟨a3, q⟩, hein, hef⟩ := List.mem_map.mp hcon
      simp only at hef
      exact ((mem_removeA _ _ _).mp hein).2 hef
    · intro a2 ha2
      obtain ⟨⟨a3, q⟩, hein, hef⟩ := List.mem_map.mp ha2
      simp only at hef
      have hin_s : (a2, q) ∈ s.clients := by
        rw [← hef]
        have h1 := ((mem_removeA _ _ _).mp hein).1
        exact List.Sublist.mem h1 (removeManyA_sublist s.clients l1)
      exact ⟨q, lookupA_of_mem_nodup s.clients a2 q hck hin_s⟩
    · intro a2 q u hq hu hfresh
      have hmem2 : (a2, q) ∈ s.clients := mem_of_lookupA _ _ _ hq
      have ha2_not_to : a2 ∉ timedOutAddrs s now := by
        intro hcon
        obtain ⟨u2, hu2, hstale2⟩ := hstale_of_to a2 hcon
        have : u2 = u := fst_unique_of_nodup s.client_last_activity hak
          a2 u2 u hu2 (mem_of_lookupA _ _ _ hu)
        rw [this] at hstale2
        exact hfresh hstale2
      have ha2_addr : a2 ≠ addr := by
        intro hcon
        rw [hcon] at ha2_not_to
        exact ha2_not_to haddr_to
      have ha2_l1 : a2 ∉ l1 := by
        intro hcon
        refine ha2_not_to ?_
        rw [hsplit]
        exact List.mem_append.mpr (Or.inl hcon)
      refine List.mem_map.mpr ⟨(a2, q), ?_, rfl⟩
      rw [mem_removeA]
      refine ⟨mem_removeManyA (a2, q) l1 s.clients hmem2 ha2_l1, ha2_addr⟩
  · have hclients1 : (removeAllClients s (l1 ++ addr :: l2)).1.clients =
        removeManyA s.clients (l1 ++ addr :: l2) :=
      removeAllClients_clients _ s
    have hpid_not : pid ∉
        ((removeAllClients s (l1 ++ addr :: l2)).1.clients.map Prod.snd) := by
      rw [hclients1]
      intro hcon
      obtain ⟨⟨k, pid2⟩, hk, hkp⟩ := List.mem_map.mp hcon
      simp only at hkp
      rw [hkp] at hk
      have hks : (k, pid) ∈ s.clients :=
        List.Sublist.mem hk (removeManyA_sublist s.clients _)
      have hkaddr : k = addr :=
        snd_unique_of_nodup s.clients hcv k addr pid hks hmemreg
      subst hkaddr
      exact not_mem_removeManyA k pid (l1 ++ k :: l2) s.clients
        (by simp) hk
    rw [List.count_eq_zero]
    intro hcon
    obtain ⟨ev, hev, hevid⟩ := List.mem_map.mp hcon
    have := removeAllClients_event_ids _ _ ev hev
    rw [hevid] at this
    exact hpid_not this

theorem C5_timeout_eviction_witness :
    (lookupA (⟨[(3, 1), (4, 2)], [(3, 10), (4, 9000)],
        [(1, spawnState 1), (2, spawnState 2)], 3⟩ : GameServer).clients 3 =
      some 1) ∧
    lookupA (check_client_timeouts
      (⟨[(3, 1), (4, 2)], [(3, 10), (4, 9000)],
        [(1, spawnState 1), (2, spawnState 2)], 3⟩ : GameServer)
      10000).1.clients 3 = none ∧
    ((check_client_timeouts
      (⟨[(3, 1), (4, 2)], [(3, 10), (4, 9000)],
        [(1, spawnState 1), (2, spawnState 2)], 3⟩ : GameServer)
      10000).2.map Prod.fst).count 1 = 1 := by
  have h := C5_timeout_eviction
    ⟨[(3, 1), (4, 2)], [(3, 10), (4, 9000)],
     [(1, spawnState 1), (2, spawnState 2)], 3⟩
    10000 3 1 10 (by decide) (by decide) (by decide) (by decide) (by decide)
    (by decide)
  exact ⟨by decide, h.1, h.2.2.2.1⟩

lemma lookupA_insertA_self {β : Type} (l : List (Nat × β)) (k : Nat)
    (v : β) : lookupA (insertA l k v) k = some v := by
  unfold lookupA insertA
  rw [List.find?_cons_of_pos _ (by simp)]
  rfl

lemma mem_values_insertA {β : Type} (l : List (Nat × β)) (k : Nat) (v w : β)
    (hw : w ∈ (insertA l k v).map Prod.snd) :
    w = v ∨ w ∈ l.map Prod.snd := by
  unfold insertA at hw
  rw [List.map_cons, List.mem_cons] at hw
  rcases hw with hw | hw
  · exact Or.inl hw
  · obtain ⟨e, he, hev⟩ := List.mem_map.mp hw
    exact Or.inr (List.mem_map.mpr
      ⟨e, List.Sublist.mem he (List.filter_sublist l), hev⟩)

/-- C6: `setup_server` reserves id 0 for the host and starts the counter at
1; a `Join` from an unregistered address is assigned `next_player_id`, gets
registry, activity and `PlayerState` entries, is answered with `Welcome`
carrying that id, and the counter increments; a `Join` from a registered
address changes nothing and sends nothing; fresh ids keep all assigned ids
distinct and below the (non-decreasing) counter. -/
theorem C6_join_assigns_fresh_ids :
    serverInit.next_player_id = 1 ∧
    lookupA serverInit.player_states 0 = some (spawnState 0) ∧
    ∀ (s : GameServer) (src now : Nat),
      (lookupA s.clients src = none →
        (handle_join s src now).2 = some (src, s.next_player_id) ∧
        (handle_join s src now).1.next_player_id = s.next_player_id + 1 ∧
        lookupA (handle_join s src now).1.clients src =
          some s.next_player_id ∧
        lookupA (handle_join s src now).1.player_states s.next_player_id =
          some (spawnState s.next_player_id) ∧
        lookupA (handle_join s src now).1.client_last_activity src =
          some now) ∧
      (∀ q, lookupA s.clients src = some q →
        handle_join s src now = (s, none)) ∧
      ((∀ v ∈ s.clients.map Prod.snd, v < s.next_player_id) →
        (s.clients.map Prod.snd).Nodup →
        (∀ v ∈ (handle_join s src now).1.clients.map Prod.snd,
          v < (handle_join s src now).1.next_player_id) ∧
        ((handle_join s src now).1.clients.map Prod.snd).Nodup ∧
        s.next_player_id ≤ (handle_join s src now).1.next_player_id) := by
  refine ⟨rfl, rfl, ?_⟩
  intro s src now
  refine ⟨?_, ?_, ?_⟩
  · intro hnone
    unfold handle_join
    rw [if_neg (by rw [hnone]; simp)]
    refine ⟨rfl, rfl, lookupA_insertA_self _ _ _,
      lookupA_insertA_self _ _ _, lookupA_insertA_self _ _ _⟩
  · intro q hsome
    unfold handle_join
    rw [if_pos (by rw [hsome]; rfl)]
  · intro hbound hnd
    by_cases hreg : (lookupA s.clients src).isSome
    · unfold handle_join
      rw [if_pos hreg]
      exact ⟨hbound, hnd, le_refl _⟩
    · unfold handle_join
      rw [if_neg hreg]
      refine ⟨?_, ?_, Nat.le_succ _⟩
      · intro v hv
        rcases mem_values_insertA s.clients src s.next_player_id v hv with
          rfl | hv2
        · exact Nat.lt_succ_self _
        · exact Nat.lt_succ_of_lt (hbound v hv2)
      · show ((s.next_player_id ::
          ((s.clients.filter fun e => e.1 != src).map Prod.snd) :
            List Nat)).Nodup
        rw [List.nodup_cons]
        constructor
        · intro hcon
          obtain ⟨e, he, hev⟩ := List.mem_map.mp hcon
          have hmem : e ∈ s.clients :=
            List.Sublist.mem he (List.filter_sublist _)
          have := hbound e.2 (List.mem_map.mpr ⟨e, hmem, rfl⟩)
          omega
        · exact List.Sublist.nodup
            (List.Sublist.map Prod.snd (List.filter_sublist _)) hnd

theorem C6_join_assigns_fresh_ids_witness :
    lookupA (⟨[(8, 1)], [(8, 0)], [(0, spawnState 0), (1, spawnState 1)],
      2⟩ : GameServer).clients 9 = none ∧
    (handle_join (⟨[(8, 1)], [(8, 0)],
      [(0, spawnState 0), (1, spawnState 1)], 2⟩ : GameServer) 9 50).2 =
      some (9, 2) ∧
    (∀ q, lookupA (⟨[(8, 1)], [(8, 0)],
        [(0, spawnState 0), (1, spawnState 1)], 2⟩ : GameServer).clients 8 =
        some q →
      handle_join (⟨[(8, 1)], [(8, 0)],
        [(0, spawnState 0), (1, spawnState 1)], 2⟩ : GameServer) 8 50 =
        (⟨[(8, 1)], [(8, 0)], [(0, spawnState 0), (1, spawnState 1)], 2⟩,
         none)) := by
  have h := C6_join_assigns_fresh_ids
  refine ⟨by decide, ?_, ?_⟩
  · exact ((h.2.2 ⟨[(8, 1)], [(8, 0)],
      [(0, spawnState 0), (1, spawnState 1)], 2⟩ 9 50).1 (by decide)).1
  · exact (h.2.2 ⟨[(8, 1)], [(8, 0)],
      [(0, spawnState 0), (1, spawnState 1)], 2⟩ 8 50).2.1

/-! ### Client game-state handling (`src/network/client.rs`)

The `GameState` arm of `client_receive`: the received player list is stored
as the remote-players list after filtering out the client's own id. -/

/-- The `GameState` arm of `client_receive`. -/
def client_handle_game_state (my_id : Option Nat)
    (players : List PlayerState) : List PlayerState :=
  players.filter fun p => some p.id != my_id

/-- C9: after processing a `GameState` on a client that knows its own id,
the stored remote-players list never contains an entry with the client's
own id, and every received entry with a different id is retained. -/
theorem C9_echo_suppression (m : Nat) (players : List PlayerState) :
    (∀ p ∈ client_handle_game_state (some m) players, p.id ≠ m) ∧
    (∀ p ∈ players, p.id ≠ m →
      p ∈ client_handle_game_state (some m) players) := by
  constructor
  · intro p hp
    have := (List.mem_filter.mp hp).2
    simp only [bne_iff_ne, ne_eq, Option.some.injEq] at this
    exact this
  · intro p hp hne
    refine List.mem_filter.mpr ⟨hp, ?_⟩
    simp only [bne_iff_ne, ne_eq, Option.some.injEq]
    exact hne

theorem C9_echo_suppression_witness :
    (spawnState 2).id ≠ 1 ∧
    spawnState 2 ∈
      client_handle_game_state (some 1) [spawnState 1, spawnState 2] ∧
    (∀ p ∈ client_handle_game_state (some 1) [spawnState 1, spawnState 2],
      p.id ≠ 1) := by
  have h := C9_echo_suppression 1 [spawnState 1, spawnState 2]
  exact ⟨by decide, h.2 (spawnState 2)
    (List.mem_cons_of_mem _ (List.mem_cons_self _ _)) (by decide), h.1⟩

end Zine
